import Mathlib

/-!
Verification development for the CurationGym curation engine.

Shallow embedding of the parts of the source relevant to the stated
properties: the document model (`src/curationgym/core/document.py`), the
slice-weighted sampler (`src/curationgym/mixing/sampler.py`), the policy
execution loop (`src/curationgym/policy/execute.py`), the dedup operators
(`src/curationgym/operators/dedup/exact_doc.py`, `minhash.py`), the
n-gram decontaminator (`src/curationgym/operators/decontam/ngram_overlap.py`),
the heuristic quality filter (`src/curationgym/operators/quality/heuristic_pack.py`),
policy/artifact hashing (`src/curationgym/policy/hash.py`,
`src/curationgym/store/artifact_store.py`), manifest and execution-state
persistence (`src/curationgym/core/manifest.py`,
`src/curationgym/pipeline/executors/local.py`).

Python machine-level details are embedded as follows: Python ints are `Int`
(arbitrary precision, as in Python), float-valued scores and thresholds are
`ℚ` (the code only ever forms ratios of integer counts and compares them),
Python dicts are association lists in insertion order with unique keys,
opaque hash functions (SHA-256, MD5) are universally quantified function
parameters, and generator mutation of `doc.metadata` is modelled by
returning explicit output records.
-/

namespace CurationGym

/-- Association-list lookup; mirrors Python `dict.get(key)` (keys are unique
in every dict the source builds, so first match is the binding). -/
def alookup {κ α : Type} [DecidableEq κ] : List (κ × α) → κ → Option α
| [], _ => none
| (k, v) :: rest, key => if k = key then some v else alookup rest key

/-- Association-list write; mirrors Python `d[key] = value` (overwrite the
existing binding, else append a new one). -/
def aset {κ α : Type} [DecidableEq κ] : List (κ × α) → κ → α → List (κ × α)
| [], key, v => [(key, v)]
| (k, w) :: rest, key, v =>
  if k = key then (k, v) :: rest else (k, w) :: aset rest key v

/-- Association-list append-to-bucket; mirrors `defaultdict(list)`:
`d[key].append(x)` creates the bucket on first touch. -/
def abucketAppend {κ α : Type} [DecidableEq κ] : List (κ × List α) → κ → α → List (κ × List α)
| [], key, x => [(key, [x])]
| (k, xs) :: rest, key, x =>
  if k = key then (k, xs ++ [x]) :: rest else (k, xs) :: abucketAppend rest key x

/-- Association-list add-to-counter; mirrors `defaultdict(int)`:
`d[key] += n` starts from 0 on first touch. -/
def abumpInt {κ : Type} [DecidableEq κ] : List (κ × Int) → κ → Int → List (κ × Int)
| [], key, n => [(key, n)]
| (k, v) :: rest, key, n =>
  if k = key then (k, v + n) :: rest else (k, v) :: abumpInt rest key n

/-- The unit of flow (`core/document.py`, class `Document`), restricted to the
fields the verified operators read: `id`, `text`, and the metadata entries
`token_count` (`metadata.get("token_count", 0)`) and `slice_tags`
(`metadata.get("slice_tags", [])`). -/
structure Doc where
  id : String
  text : String
  tokenCount : Int := 0
  sliceTags : List String := []
deriving DecidableEq, Repr

/-! ## Slice-weighted sampler (`mixing/sampler.py`) -/

/-- `SamplingConfig` (weights and caps; `None` means the field was not
configured).  `temperature` and `seed` only affect `_get_weight` and the RNG,
which are abstracted as explicit function parameters below because they work
on Python floats (`base_weight ** (1.0 / temperature)`,
`random.Random.random()`). -/
structure SamplingConfig where
  weights : Option (List (String × ℚ)) := none
  maxTokensPerSlice : Option (List (String × Int)) := none
deriving Repr

/-- The sampler's mutable state: `self._slice_tokens` (a `defaultdict(int)`)
and `self._slice_docs` (a `defaultdict(list)`), in insertion order. -/
structure SamplerState where
  sliceTokens : List (String × Int) := []
  sliceDocs : List (String × List Doc) := []
deriving Repr

/-- Fresh sampler state (`SliceSampler.__init__`). -/
def initSampler : SamplerState := {}

/-- `self._slice_tokens[slice_tag]` under `defaultdict(int)` semantics.
(The Python access also inserts the key with value 0; that side effect is
value-irrelevant and omitted.) -/
def sliceTokensGet (st : SamplerState) (tag : String) : Int :=
  (alookup st.sliceTokens tag).getD 0

/-- `SliceSampler._is_slice_capped`. -/
def isSliceCapped (cfg : SamplingConfig) (st : SamplerState) (tag : String) : Bool :=
  match cfg.maxTokensPerSlice with
  | none => false
  | some caps =>
    match alookup caps tag with
    | none => false
    | some maxTokens => decide (sliceTokensGet st tag ≥ maxTokens)

/-- One iteration of the `for tag in slice_tags` accumulation loop in
`SliceSampler.add_document`: `self._slice_docs[tag].append(doc)` and
`self._slice_tokens[tag] += token_count`. -/
def addTagStep (doc : Doc) (s : SamplerState) (tag : String) : SamplerState :=
  { s with
    sliceDocs := abucketAppend s.sliceDocs tag doc,
    sliceTokens := abumpInt s.sliceTokens tag doc.tokenCount }

/-- `SliceSampler.add_document`: reject if any slice tag is capped;
otherwise append the doc to every tag's bucket and add its token count to
every tag's counter.  Returns the new state and the admission flag. -/
def addDocument (cfg : SamplingConfig) (st : SamplerState) (doc : Doc) : SamplerState × Bool :=
  if doc.sliceTags.any (fun tag => isSliceCapped cfg st tag) then (st, false)
  else (doc.sliceTags.foldl (addTagStep doc) st, true)

/-- Feed a list of documents through `add_document` in order (a client call
sequence), starting from a given state. -/
def addAll (cfg : SamplingConfig) (docs : List Doc) (st : SamplerState) : SamplerState :=
  docs.foldl (fun s d => (addDocument cfg s d).1) st

/-- Invariant of the sampler's buckets: a bucket keyed by `tag` holds only
documents that carry `tag` in their `slice_tags` (this is how
`add_document` fills the buckets). -/
def BucketInv (st : SamplerState) : Prop :=
  ∀ p ∈ st.sliceDocs, ∀ x ∈ p.2, p.1 ∈ x.sliceTags

/-- The inner step of the pool construction in `SliceSampler.sample`: skip a
document whose id is in `seen_ids`, else append it (with its bucket's
weight) and mark the id seen. -/
def poolInner (w : ℚ) (acc : List (Doc × ℚ) × List String) (d : Doc) :
    List (Doc × ℚ) × List String :=
  if d.id ∈ acc.2 then acc else (acc.1 ++ [(d, w)], acc.2 ++ [d.id])

/-- One bucket's contribution to the pool (`for tag, docs in self._slice_docs.items()`). -/
def poolOuter (getW : String → ℚ) (acc : List (Doc × ℚ) × List String)
    (p : String × List Doc) : List (Doc × ℚ) × List String :=
  p.2.foldl (poolInner (getW p.1)) acc

/-- The weighted pool built at the top of `SliceSampler.sample`: iterate the
buckets in insertion order, skipping documents whose id was already seen,
pairing each with its tag's weight (`_get_weight`, passed as `getW`). -/
def samplePool (getW : String → ℚ) (st : SamplerState) : List (Doc × ℚ) :=
  (st.sliceDocs.foldl (poolOuter getW) ([], [])).1

/-- The inner selection scan of `SliceSampler.sample`: accumulate weights and
return the index of the first element whose cumulative weight reaches `r`;
`selected_idx` stays 0 when no element does. -/
def selectIdx (r : ℚ) : List (Doc × ℚ) → ℚ → Nat → Nat
| [], _, _ => 0
| (_, w) :: rest, cum, i =>
  if cum + w ≥ r then i else selectIdx r rest (cum + w) (i + 1)

/-- The draw loop of `SliceSampler.sample`: `fuel` is `min n (len remaining)`,
`step` counts RNG calls (`rng step` models `self._rng.random()`). -/
def sampleLoop (rng : Nat → ℚ) : Nat → Nat → List (Doc × ℚ) → ℚ → List Doc → List Doc
| 0, _, _, _, sampled => sampled
| fuel + 1, step, remaining, totalW, sampled =>
  match remaining with
  | [] => sampled
  | _ :: _ =>
    let r := rng step * totalW
    let idx := selectIdx r remaining 0 0
    match remaining[idx]? with
    | none => sampled
    | some (doc, w) =>
      sampleLoop rng fuel (step + 1)
        (remaining.eraseIdx idx) (totalW - w) (sampled ++ [doc])

/-- `SliceSampler.sample`: empty-bucket early returns, pool construction,
then weighted sampling without replacement. -/
def sample (getW : String → ℚ) (rng : Nat → ℚ) (st : SamplerState) (n : Nat) : List Doc :=
  if st.sliceDocs = [] then []
  else
    let pool := samplePool getW st
    if pool = [] then []
    else sampleLoop rng (min n pool.length) 0 pool ((pool.map Prod.snd).sum) []

/-! ## Policy execution loop (`policy/execute.py`, `execute_policy`)

The per-document stages upstream of the token-budget check (language filter,
token counter, quality filter, PII mask, slice assignment, dedup, decontam)
are composed into one stateful stage `upstream : υ → Doc → υ × Option Doc`
(`none` = the document was filtered out before reaching the budget check).
The budget check, the sampler admission, and the emission bookkeeping are
embedded concretely. -/

/-- The loop state of `execute_policy`: `total_tokens`, the sampler, and the
documents appended to `shard_docs` (all of which are written to output
shards by `write_shard`). -/
structure ExecState where
  totalTokens : Int := 0
  samplerSt : SamplerState := {}
  emitted : List Doc := []

/-- The `for doc in input_docs` loop of `execute_policy` from the token-budget
check down: at the first surviving document whose tokens would push
`total_tokens` past `max_tokens` the loop `break`s; documents rejected by
`sampler.add_document` are skipped; admitted documents are emitted and
counted. -/
def execLoop {υ : Type} (upstream : υ → Doc → υ × Option Doc)
    (maxTokens : Int) (cfg : SamplingConfig) : List Doc → υ → ExecState → ExecState
| [], _, s => s
| doc :: rest, u, s =>
  match upstream u doc with
  | (u', none) => execLoop upstream maxTokens cfg rest u' s
  | (u', some d) =>
    if s.totalTokens + d.tokenCount > maxTokens then s
    else
      match addDocument cfg s.samplerSt d with
      | (_, false) => execLoop upstream maxTokens cfg rest u' s
      | (st', true) =>
        execLoop upstream maxTokens cfg rest u'
          { totalTokens := s.totalTokens + d.tokenCount,
            samplerSt := st',
            emitted := s.emitted ++ [d] }

/-- Run `execute_policy`'s kept-document loop from the initial state. -/
def execPolicy {υ : Type} (upstream : υ → Doc → υ × Option Doc)
    (maxTokens : Int) (cfg : SamplingConfig) (docs : List Doc) (u0 : υ) : ExecState :=
  execLoop upstream maxTokens cfg docs u0 {}

/-! ## Exact deduplication (`operators/dedup/exact_doc.py`) -/

/-- The whitespace-run collapse of `re.sub(r"\s+", " ", text)`: a whitespace
character opens a run replaced by one space; further whitespace in the same
run (flag `prevWs`) emits nothing. -/
def squeezeWs : Bool → List Char → List Char
| _, [] => []
| prevWs, c :: rest =>
  if c.isWhitespace then
    (if prevWs then [] else [' ']) ++ squeezeWs true rest
  else c :: squeezeWs false rest

/-- Python `str.strip()`: drop leading and trailing whitespace. -/
def stripChars (l : List Char) : List Char :=
  ((l.dropWhile Char.isWhitespace).reverse.dropWhile Char.isWhitespace).reverse

/-- `ExactDedup._normalize_text`: when normalization is on, lowercase,
collapse each whitespace run to a single space, and strip (`str.lower` is
embedded as `Char.toLower`, exact on ASCII). -/
def normalizeText (normalize : Bool) (text : String) : String :=
  if normalize then
    String.mk (stripChars (squeezeWs false (text.data.map Char.toLower)))
  else text

/-- Output record of a dedup `process` generator for one document: the
metadata entries it writes (`content_hash` for exact dedup,
`dedup_cluster_id`, and for duplicates `dedup_dropped` / `dedup_method`);
`dropped = true` exactly when the document was not yielded. -/
structure DedupOut where
  doc : Doc
  contentHash : String
  clusterId : String
  dropped : Bool
  method : Option String
deriving DecidableEq, Repr

/-- `ExactDedup.__call__`: hash the normalized text with the abstract
SHA-256 `h`; the first occurrence of a hash is unique and is recorded in
`_seen` (hash → first doc id), later occurrences are duplicates. -/
def exactCall (h : String → String) (normalize : Bool)
    (seen : List (String × String)) (doc : Doc) :
    (Bool × String) × List (String × String) :=
  let docHash := h (normalizeText normalize doc.text)
  match alookup seen docHash with
  | some _ => ((false, docHash), seen)
  | none => ((true, docHash), seen ++ [(docHash, doc.id)])

/-- `ExactDedup.process`: annotate every document with `content_hash` and
`dedup_cluster_id` (first 16 chars of the hash); yield unique documents,
mark duplicates `dedup_dropped = true` with `dedup_method = "exact"`. -/
def exactProcess (h : String → String) (normalize : Bool) :
    List Doc → List (String × String) → List DedupOut
| [], _ => []
| d :: rest, seen =>
  match exactCall h normalize seen d with
  | ((isUnique, dh), seen') =>
    { doc := d, contentHash := dh, clusterId := dh.take 16,
      dropped := !isUnique,
      method := if isUnique then none else some "exact" }
      :: exactProcess h normalize rest seen'

/-! ## MinHash LSH deduplication (`operators/dedup/minhash.py`)

The signature computation (`_compute_minhash` via MD5, `_get_band_hashes`
via Python's tuple `hash`) maps document text to one bucket key per band; it
is abstracted as `bandFn : String → List Int`.  The LSH bucket and cluster
bookkeeping of `add_document` / `process` is embedded concretely. -/

/-- `MinHashDedup` state: `self._buckets` (band index × band hash → doc ids,
a nested `defaultdict(list)`), `self._doc_clusters` (doc id → cluster id),
`self._cluster_docs` (cluster id → doc ids). -/
structure MinHashState where
  buckets : List ((Nat × Int) × List String) := []
  docClusters : List (String × String) := []
  clusterDocs : List (String × List String) := []
deriving Repr

/-- The inner candidate loop of `_find_cluster`: the first bucket member with
a cluster assignment wins. -/
def firstAssigned (dc : List (String × String)) : List String → Option String
| [] => none
| cand :: rest =>
  match alookup dc cand with
  | some cl => some cl
  | none => firstAssigned dc rest

/-- `MinHashDedup._find_cluster`: scan bands in order (band index counting up
from `i`), each band's bucket members in insertion order. -/
def findClusterFrom (st : MinHashState) : Nat → List Int → Option String
| _, [] => none
| i, bh :: rest =>
  match firstAssigned st.docClusters ((alookup st.buckets (i, bh)).getD []) with
  | some cl => some cl
  | none => findClusterFrom st (i + 1) rest

/-- `MinHashDedup._add_to_buckets`: append the doc id to every band's
bucket, band by band. -/
def addToBuckets (docId : String) :
    List ((Nat × Int) × List String) → Nat → List Int → List ((Nat × Int) × List String)
| buckets, _, [] => buckets
| buckets, i, bh :: rest => addToBuckets docId (abucketAppend buckets (i, bh) docId) (i + 1) rest

/-- `MinHashDedup.add_document`: join the cluster found through the LSH
buckets (first-writer-wins) or create a new cluster keyed by the doc id;
in both cases record the doc's cluster and add the doc id to the buckets of
all its bands. -/
def minhashAdd (bandFn : String → List Int) (st : MinHashState) (doc : Doc) :
    (Bool × String) × MinHashState :=
  let bandHashes := bandFn doc.text
  match findClusterFrom st 0 bandHashes with
  | none =>
    ((true, doc.id),
      { buckets := addToBuckets doc.id st.buckets 0 bandHashes,
        docClusters := aset st.docClusters doc.id doc.id,
        clusterDocs := abucketAppend st.clusterDocs doc.id doc.id })
  | some cl =>
    ((false, cl),
      { buckets := addToBuckets doc.id st.buckets 0 bandHashes,
        docClusters := aset st.docClusters doc.id cl,
        clusterDocs := abucketAppend st.clusterDocs cl doc.id })

/-- Output record of `MinHashDedup.process` for one document
(`dedup_cluster_id`, `dedup_method`, and for cluster non-heads
`dedup_dropped`); `dropped = true` exactly when the doc was not yielded. -/
structure MinOut where
  doc : Doc
  clusterId : String
  dropped : Bool
  method : Option String
deriving Repr

/-- `MinHashDedup.process`: yield only the first member of each cluster;
flag later members `dedup_dropped = true`.  Every output carries the first
16 characters of its cluster id and `dedup_method = "minhash"`. -/
def minhashProcess (bandFn : String → List Int) :
    List Doc → MinHashState → List MinOut
| [], _ => []
| d :: rest, st =>
  match minhashAdd bandFn st d with
  | ((isFirst, cl), st') =>
    { doc := d, clusterId := cl.take 16, dropped := !isFirst,
      method := some "minhash" } :: minhashProcess bandFn rest st'

/-- Verification-side description of `_find_cluster`'s scan order: all bucket
members of the first band, then of the next band, and so on. -/
def scanCandidates (st : MinHashState) : Nat → List Int → List String
| _, [] => []
| i, bh :: rest => ((alookup st.buckets (i, bh)).getD []) ++ scanCandidates st (i + 1) rest

/-! ## N-gram decontamination (`operators/decontam/ngram_overlap.py`)

`_hash_ngram` (MD5, first 16 hex digits read as an integer) is abstracted as
`hashFn : String → Int`.  Overlap scores — float ratios of integer counts in
the source — are embedded as rationals.  The per-source attribution fields
(`eval_source`, `_ngram_to_source`) and the statistics counters are not read
by the verified properties and are omitted. -/

/-- `DecontamMode`. -/
inductive DecontamMode where
  | drop
  | redact
  | downweight
  | tag
deriving DecidableEq, Repr

/-- `ContaminationResult` (the fields the verified properties read). -/
structure ContaminationResult where
  isContaminated : Bool
  overlapScore : ℚ
  matchedNgrams : List String
deriving Repr

/-- Character-level worker for Python `str.split()` (no arguments): split on
whitespace runs, producing no empty parts; `cur` is the reversed current
word. -/
def splitWhitespaceAux : List Char → List Char → List String
| [], cur => if cur = [] then [] else [String.mk cur.reverse]
| c :: rest, cur =>
  if c.isWhitespace then
    (if cur = [] then [] else [String.mk cur.reverse]) ++ splitWhitespaceAux rest []
  else splitWhitespaceAux rest (c :: cur)

/-- Python `text.split()`: split on whitespace, dropping empty parts. -/
def pySplit (text : String) : List String :=
  splitWhitespaceAux text.data []

/-- Character-level worker for Python `text.split("\n")`: split at every
newline, keeping empty parts. -/
def splitLinesAux : List Char → List Char → List String
| [], cur => [String.mk cur.reverse]
| c :: rest, cur =>
  if c = '\n' then String.mk cur.reverse :: splitLinesAux rest []
  else splitLinesAux rest (c :: cur)

/-- Does `l` start with the pattern? -/
def startsWithSeq : List Char → List Char → Bool
| [], _ => true
| _ :: _, [] => false
| p :: ps, c :: cs => p == c && startsWithSeq ps cs

/-- Python substring membership `pat in l` at the character level. -/
def containsSeq (pat : List Char) : List Char → Bool
| [] => startsWithSeq pat []
| c :: rest => startsWithSeq pat (c :: rest) || containsSeq pat rest

/-- `NgramDecontaminator._extract_ngrams`: word-level n-grams of the
lowercased text; texts with fewer than `n` words yield their single joined
word list, empty texts nothing. -/
def extractNgrams (n : Nat) (text : String) : List String :=
  let words := pySplit (String.mk (text.data.map Char.toLower))
  if words.length < n then
    (if words = [] then [] else [" ".intercalate words])
  else
    (List.range (words.length - n + 1)).map
      (fun i => " ".intercalate ((words.drop i).take n))

/-- `NgramDecontaminator` configuration and eval-data index
(`_eval_ngrams : source → set of n-gram hashes`). -/
structure DecontamState where
  ngramSize : Nat
  overlapThreshold : ℚ
  mode : DecontamMode
  maxMatchedStored : Nat
  evalNgrams : List (String × List Int)
deriving Repr

/-- The union of all sources' hash sets built at the top of `check`. -/
def allEvalHashes (st : DecontamState) : List Int :=
  (st.evalNgrams.map Prod.snd).flatten

/-- The matched-hash / matched-ngram accumulation loop of `check`:
`matched_hashes` is a set (each hash counted once); `matched_ngrams` stores
the ngram text while fewer than `max_matched_ngrams_stored` are stored. -/
def matchedFold (hashFn : String → Int) (evalHashes : List Int) (maxStored : Nat)
    (docNgrams : List String) : List Int × List String :=
  docNgrams.foldl (fun acc ng =>
    let h := hashFn ng
    if h ∈ evalHashes then
      (if h ∈ acc.1 then acc.1 else acc.1 ++ [h],
       if acc.2.length < maxStored then acc.2 ++ [ng] else acc.2)
    else acc) ([], [])

/-- `NgramDecontaminator.check`: score 0 and not contaminated when the index
or the document's n-gram list is empty; otherwise
`overlap_score = |matched hashes| / |doc n-grams|` and
`contaminated ⇔ overlap_score ≥ threshold`. -/
def decontamCheck (hashFn : String → Int) (st : DecontamState) (doc : Doc) :
    ContaminationResult :=
  if st.evalNgrams = [] then ⟨false, 0, []⟩
  else
    let docNgrams := extractNgrams st.ngramSize doc.text
    if docNgrams = [] then ⟨false, 0, []⟩
    else
      let m := matchedFold hashFn (allEvalHashes st) st.maxMatchedStored docNgrams
      let score : ℚ := (m.1.length : ℚ) / (docNgrams.length : ℚ)
      ⟨decide (score ≥ st.overlapThreshold), score, m.2⟩

/-- `NgramDecontaminator.process`, restricted to what the stream observes:
the returned document (`None` = dropped).  `drop` removes the document;
`tag` and `downweight` pass it through; `redact` replaces the stored matched
n-grams by `[REDACTED]`. -/
def decontamProcessDoc (hashFn : String → Int) (st : DecontamState) (doc : Doc) :
    Option Doc × ContaminationResult :=
  let r := decontamCheck hashFn st doc
  if r.isContaminated = false then (some doc, r)
  else
    match st.mode with
    | .drop => (none, r)
    | .tag => (some doc, r)
    | .downweight => (some doc, r)
    | .redact =>
      (some { doc with
        text := (r.matchedNgrams.foldl (fun t ng => t.replace ng "[REDACTED]") doc.text) }, r)

/-- `NgramDecontaminator.process_stream`: yield non-dropped documents. -/
def decontamProcessStream (hashFn : String → Int) (st : DecontamState) :
    List Doc → List Doc
| [] => []
| d :: rest =>
  match (decontamProcessDoc hashFn st d).1 with
  | none => decontamProcessStream hashFn st rest
  | some d' => d' :: decontamProcessStream hashFn st rest

/-! ## Heuristic quality filtering (`operators/quality/heuristic_pack.py`)

Scores and thresholds (Python floats) are embedded as rationals; every score
the source computes is a ratio of integer counts.  `Char.isDigit` /
`Char.isAlpha` stand for Python's `str.isdigit` / `str.isalpha` (exact on
ASCII). -/

/-- `QualityConfig` with the source's default thresholds and enabled
rules. -/
structure QualityConfig where
  maxWordRepRatio : ℚ := 1/5
  maxLineRepRatio : ℚ := 3/10
  maxParagraphRepRatio : ℚ := 3/10
  maxCharRepRatio : ℚ := 1/5
  minWords : Int := 50
  maxWords : Int := 100000
  minAvgWordLength : ℚ := 3
  maxAvgWordLength : ℚ := 10
  minSentenceEndRatio : ℚ := 1/10
  maxEllipsisRatio : ℚ := 1/10
  maxBulletRatio : ℚ := 9/10
  maxCurlyBraceRatio : ℚ := 1/20
  maxDigitRatio : ℚ := 3/10
  minAlphaRatio : ℚ := 3/5
  enabledRules : List String := ["word_rep", "line_rep", "char_rep", "min_words",
    "max_words", "avg_word_length", "sentence_end", "ellipsis", "bullet",
    "curly_brace", "digit_ratio", "alpha_ratio"]
deriving Repr

/-- `HeuristicQualityFilter._get_words`. -/
def getWords (text : String) : List String := pySplit text

/-- `HeuristicQualityFilter._get_lines`: the lines of `text.split("\n")`
whose strip is non-empty (the original, unstripped lines are kept). -/
def getLines (text : String) : List String :=
  (splitLinesAux text.data []).filter (fun l => !(String.mk (stripChars l.data) == ""))

/-- `counts.most_common(1)[0][1]`: the largest multiplicity. -/
def maxWordCount (words : List String) : Nat :=
  (words.map (fun w => words.count w)).foldl max 0

/-- `_check_word_repetition`: fewer than 10 words pass vacuously. -/
def checkWordRep (cfg : QualityConfig) (text : String) : Bool × ℚ :=
  let words := getWords text
  if words.length < 10 then (true, 0)
  else
    let ratio : ℚ := (maxWordCount words : ℚ) / (words.length : ℚ)
    (decide (ratio ≤ cfg.maxWordRepRatio), ratio)

/-- `_check_line_repetition`: fewer than 3 lines pass vacuously; the score
counts duplicate lines beyond their first occurrence. -/
def checkLineRep (cfg : QualityConfig) (text : String) : Bool × ℚ :=
  let lines := getLines text
  if lines.length < 3 then (true, 0)
  else
    let dup : Nat := ((lines.dedup).map (fun l =>
      if 1 < lines.count l then lines.count l - 1 else 0)).sum
    let ratio : ℚ := (dup : ℚ) / (lines.length : ℚ)
    (decide (ratio ≤ cfg.maxLineRepRatio), ratio)

/-- The non-overlapping matches of `(.)\1{9,}`: maximal runs of ≥ 10 equal
characters (newline excluded, as `.` does not match it). -/
def countRuns : List Char → Nat
| [] => 0
| c :: rest =>
  (if 10 ≤ 1 + (rest.takeWhile (fun x => x == c)).length ∧ ¬ (c = '\n') then 1 else 0)
    + countRuns (rest.dropWhile (fun x => x == c))
termination_by l => l.length
decreasing_by
  simp only [List.length_cons]
  have h : (rest.dropWhile (fun x => x == c)).length ≤ rest.length :=
    List.Sublist.length_le (List.dropWhile_sublist (fun x => x == c))
  omega

/-- `_check_char_repetition`: texts shorter than 100 characters pass
vacuously. -/
def checkCharRep (cfg : QualityConfig) (text : String) : Bool × ℚ :=
  if text.length < 100 then (true, 0)
  else
    let ratio : ℚ := (countRuns text.data : ℚ) * 10 / (text.length : ℚ)
    (decide (ratio ≤ cfg.maxCharRepRatio), ratio)

/-- `_check_min_words`: evaluated on any input, including the empty text. -/
def checkMinWords (cfg : QualityConfig) (text : String) : Bool × ℚ :=
  let count := (getWords text).length
  (decide (cfg.minWords ≤ (count : Int)), (count : ℚ))

/-- `_check_max_words`. -/
def checkMaxWords (cfg : QualityConfig) (text : String) : Bool × ℚ :=
  let count := (getWords text).length
  (decide ((count : Int) ≤ cfg.maxWords), (count : ℚ))

/-- `_check_avg_word_length`: no words pass vacuously. -/
def checkAvgWordLength (cfg : QualityConfig) (text : String) : Bool × ℚ :=
  let words := getWords text
  if words = [] then (true, 0)
  else
    let avg : ℚ := (((words.map String.length).sum : Nat) : ℚ) / (words.length : ℚ)
    (decide (cfg.minAvgWordLength ≤ avg ∧ avg ≤ cfg.maxAvgWordLength), avg)

/-- Python `str.rstrip()`. -/
def rstripStr (l : String) : String :=
  String.mk (l.data.reverse.dropWhile Char.isWhitespace).reverse

/-- `l.rstrip()[-1:] in ".!?"` (Python substring membership, under which the
empty string is a member; `_get_lines` never produces such a line). -/
def endsWithPunct (l : String) : Bool :=
  match (rstripStr l).data.getLast? with
  | some ch => ch == '.' || ch == '!' || ch == '?'
  | none => true

/-- `_check_sentence_endings`: no lines pass vacuously. -/
def checkSentenceEndings (cfg : QualityConfig) (text : String) : Bool × ℚ :=
  let lines := getLines text
  if lines = [] then (true, 0)
  else
    let ratio : ℚ := (lines.countP endsWithPunct : ℚ) / (lines.length : ℚ)
    (decide (ratio ≥ cfg.minSentenceEndRatio), ratio)

/-- `"..." in l or "…" in l`. -/
def hasEllipsis (l : String) : Bool :=
  containsSeq ['.', '.', '.'] l.data || containsSeq "…".data l.data

/-- `_check_ellipsis`: no lines pass vacuously. -/
def checkEllipsis (cfg : QualityConfig) (text : String) : Bool × ℚ :=
  let lines := getLines text
  if lines = [] then (true, 0)
  else
    let ratio : ℚ := (lines.countP hasEllipsis : ℚ) / (lines.length : ℚ)
    (decide (ratio ≤ cfg.maxEllipsisRatio), ratio)

/-- `re.match(r"^[\s]*[-*•◦▪▸►]", l)`. -/
def isBulletLine (l : String) : Bool :=
  match l.data.dropWhile Char.isWhitespace with
  | [] => false
  | c :: _ =>
    c == '-' || c == '*' || c == '•' || c == '◦' || c == '▪' || c == '▸' || c == '►'

/-- `_check_bullets`: no lines pass vacuously. -/
def checkBullets (cfg : QualityConfig) (text : String) : Bool × ℚ :=
  let lines := getLines text
  if lines = [] then (true, 0)
  else
    let ratio : ℚ := (lines.countP isBulletLine : ℚ) / (lines.length : ℚ)
    (decide (ratio ≤ cfg.maxBulletRatio), ratio)

/-- `_check_curly_braces`: empty text passes vacuously. -/
def checkCurlyBraces (cfg : QualityConfig) (text : String) : Bool × ℚ :=
  if text = "" then (true, 0)
  else
    let braces := text.data.count (Char.ofNat 123) + text.data.count (Char.ofNat 125)
    let ratio : ℚ := (braces : ℚ) / (text.length : ℚ)
    (decide (ratio ≤ cfg.maxCurlyBraceRatio), ratio)

/-- `_check_digit_ratio`: empty text passes vacuously. -/
def checkDigitRatio (cfg : QualityConfig) (text : String) : Bool × ℚ :=
  if text = "" then (true, 0)
  else
    let ratio : ℚ := (text.data.countP Char.isDigit : ℚ) / (text.length : ℚ)
    (decide (ratio ≤ cfg.maxDigitRatio), ratio)

/-- `_check_alpha_ratio`: empty text passes vacuously. -/
def checkAlphaRatio (cfg : QualityConfig) (text : String) : Bool × ℚ :=
  if text = "" then (true, 0)
  else
    let ratio : ℚ := (text.data.countP Char.isAlpha : ℚ) / (text.length : ℚ)
    (decide (ratio ≥ cfg.minAlphaRatio), ratio)

/-- The rule table `self._rules`: rule name → check (unknown names are
skipped by `__call__`). -/
def ruleEval (cfg : QualityConfig) (name : String) (text : String) :
    Option (Bool × ℚ) :=
  if name = "word_rep" then some (checkWordRep cfg text)
  else if name = "line_rep" then some (checkLineRep cfg text)
  else if name = "char_rep" then some (checkCharRep cfg text)
  else if name = "min_words" then some (checkMinWords cfg text)
  else if name = "max_words" then some (checkMaxWords cfg text)
  else if name = "avg_word_length" then some (checkAvgWordLength cfg text)
  else if name = "sentence_end" then some (checkSentenceEndings cfg text)
  else if name = "ellipsis" then some (checkEllipsis cfg text)
  else if name = "bullet" then some (checkBullets cfg text)
  else if name = "curly_brace" then some (checkCurlyBraces cfg text)
  else if name = "digit_ratio" then some (checkDigitRatio cfg text)
  else if name = "alpha_ratio" then some (checkAlphaRatio cfg text)
  else none

/-- One iteration of the rule loop in `HeuristicQualityFilter.__call__`:
record the score, and the rule name when it failed. -/
def qualityStep (cfg : QualityConfig) (text : String)
    (acc : List (String × ℚ) × List String) (rule : String) :
    List (String × ℚ) × List String :=
  match ruleEval cfg rule text with
  | none => acc
  | some (passes, score) =>
    (acc.1 ++ [(rule, score)], if passes then acc.2 else acc.2 ++ [rule])

/-- `HeuristicQualityFilter.__call__`: returns
`(passes, scores, failed_rules)`. -/
def qualityCall (cfg : QualityConfig) (text : String) :
    Bool × List (String × ℚ) × List String :=
  let step := cfg.enabledRules.foldl (qualityStep cfg text) ([], [])
  (decide (step.2 = []), step.1, step.2)

/-- Outcome of `HeuristicQualityFilter.filter` for one document: the
returned document (`none` = rejected), the recorded `quality_scores`
metadata, and the rejection flags. -/
structure QualityOut where
  result : Option Doc
  qualityScores : List (String × ℚ)
  rejected : Bool
  failedRules : List String

/-- `HeuristicQualityFilter.filter`: `quality_scores` is always written;
rejection also records `quality_filter_rejected` and the failed rules. -/
def qualityFilter (cfg : QualityConfig) (doc : Doc) : QualityOut :=
  match qualityCall cfg doc.text with
  | (passes, scores, failed) =>
    if passes then ⟨some doc, scores, false, []⟩
    else ⟨none, scores, true, failed⟩

/-! ## JSON values

Python dicts and JSON documents are embedded as `Json` values whose objects
are association lists in insertion order.  Number literals are carried as
their serialized token (the verified properties never compute with them). -/

/-- A JSON value. -/
inductive Json where
  | null
  | bool (b : Bool)
  | num (s : String)
  | str (s : String)
  | arr (xs : List Json)
  | obj (kvs : List (String × Json))
deriving Repr

/-! ## Policy hashing (`policy/hash.py`, `store/artifact_store.py`)

`json.dumps(·, sort_keys=True)` sorts the keys of every object while
serializing; it is embedded as order-preserving serialization (`dumpsV`) of
the recursively key-sorted value (`sortJson`), which produces the same
string.  SHA-256 (`hashlib.sha256(...).hexdigest()`) is abstracted as
`sha : String → String`. -/

/-- JSON string escaping (quote and backslash; the dictionaries the source
hashes contain no control characters). -/
def encChar (c : Char) : List Char :=
  if c = '\"' then ['\\', '\"']
  else if c = '\\' then ['\\', '\\']
  else [c]

/-- A JSON string literal. -/
def encStr (s : String) : String :=
  String.mk ('\"' :: (s.data.map encChar).flatten ++ ['\"'])

/-- Key order used by `sort_keys=True`. -/
def keyLe (a b : String × Json) : Prop := a.1 ≤ b.1

instance : DecidableRel keyLe := fun a b => inferInstanceAs (Decidable (a.1 ≤ b.1))

instance : IsTotal (String × Json) keyLe := ⟨fun a b => le_total a.1 b.1⟩

instance : IsTrans (String × Json) keyLe := ⟨fun _ _ _ h1 h2 => le_trans h1 h2⟩

/-- Sort an object's entries lexicographically by key. -/
def sortByKey (kvs : List (String × Json)) : List (String × Json) :=
  List.insertionSort keyLe kvs

mutual
/-- Recursively sort all object keys (what `sort_keys=True` does while
serializing). -/
def sortJson : Json → Json
| .null => .null
| .bool b => .bool b
| .num s => .num s
| .str s => .str s
| .arr xs => .arr (sortJsonList xs)
| .obj kvs => .obj (sortByKey (sortJsonKVs kvs))

def sortJsonList : List Json → List Json
| [] => []
| x :: xs => sortJson x :: sortJsonList xs

def sortJsonKVs : List (String × Json) → List (String × Json)
| [] => []
| (k, v) :: rest => (k, sortJson v) :: sortJsonKVs rest
end

mutual
/-- `json.dumps` body with the given item and key-value separators (order
preserving; preceded by `sortJson` this is `sort_keys=True`). -/
def dumpsV (isep ksep : String) : Json → String
| .null => "null"
| .bool true => "true"
| .bool false => "false"
| .num s => s
| .str s => encStr s
| .arr xs => "[" ++ dumpsList isep ksep xs ++ "]"
| .obj kvs => "\x7b" ++ dumpsKVs isep ksep kvs ++ "\x7d"

def dumpsList (isep ksep : String) : List Json → String
| [] => ""
| [x] => dumpsV isep ksep x
| x :: y :: rest => dumpsV isep ksep x ++ isep ++ dumpsList isep ksep (y :: rest)

def dumpsKVs (isep ksep : String) : List (String × Json) → String
| [] => ""
| [kv] => encStr kv.1 ++ ksep ++ dumpsV isep ksep kv.2
| kv :: kw :: rest =>
  encStr kv.1 ++ ksep ++ dumpsV isep ksep kv.2 ++ isep ++ dumpsKVs isep ksep (kw :: rest)
end

/-- `canonicalize_policy`: `json.dumps(policy.to_dict(), sort_keys=True,
separators=(",", ":"))`. -/
def canonicalizePolicy (j : Json) : String :=
  dumpsV "," ":" (sortJson j)

/-- `compute_policy_hash`: first 16 hex chars of SHA-256 over the canonical
policy string. -/
def computePolicyHash (sha : String → String) (j : Json) : String :=
  (sha (canonicalizePolicy j)).take 16

/-- `ArtifactStore.compute_artifact_hash`: the key dict holds the policy
config serialized with `json.dumps(policy_config, sort_keys=True)` (default
separators `", "` / `": "`), the code version and the input signature; the
hash is the first 16 hex chars of SHA-256 over
`json.dumps(key, sort_keys=True)`. -/
def computeArtifactHash (sha : String → String) (policyConfig : Json)
    (codeVersion inputSignature : String) : String :=
  let key := Json.obj [("policy", .str (dumpsV ", " ": " (sortJson policyConfig))),
                       ("code", .str codeVersion),
                       ("input", .str inputSignature)]
  (sha (dumpsV ", " ": " (sortJson key))).take 16

/-! ## Manifest and execution-state persistence (`core/manifest.py`,
`pipeline/executors/local.py`) -/

/-- A filesystem operation issued by a save routine. -/
inductive FsOp where
  | writeText (path : String) (content : String)
  | rename (src : String) (dst : String)
deriving DecidableEq, Repr

/-- The `DatasetManifest` dataclass (compound fields carried as JSON). -/
structure DatasetManifest where
  datasetId : String
  createdAt : String
  inputSources : List Json
  policyConfig : Json
  policyConfigHash : String
  codeCommit : String
  codeDirty : Bool
  randomSeed : Int
  format : String
  shards : List Json
  stats : Json

/-- `DatasetManifest.to_dict`: the serialized dictionary, keys in source
order. -/
def manifestToDict (m : DatasetManifest) : Json :=
  .obj [("dataset_id", .str m.datasetId),
        ("created_at", .str m.createdAt),
        ("input_sources", .arr m.inputSources),
        ("policy_config", m.policyConfig),
        ("policy_config_hash", .str m.policyConfigHash),
        ("code_commit", .str m.codeCommit),
        ("code_dirty", .bool m.codeDirty),
        ("random_seed", .num (toString m.randomSeed)),
        ("format", .str m.format),
        ("shards", .arr m.shards),
        ("stats", m.stats)]

/-- `DatasetManifest.save`: `Path(path).write_text(json.dumps(self.to_dict(),
indent=2))` — the trace of filesystem operations is one direct write of the
serialized dictionary (`dumps` abstracts `json.dumps(·, indent=2)`). -/
def manifestSave (dumps : Json → String) (m : DatasetManifest) (path : String) :
    List FsOp :=
  [FsOp.writeText path (dumps (manifestToDict m))]

/-- `TaskStatus` (`pipeline/executors/local.py`). -/
structure TaskStatus where
  taskId : Nat
  status : String
  docsProcessed : Nat
  error : Option String
deriving DecidableEq, Repr

/-- `ExecutionState` (`run_id`, `total_tasks`, `tasks` keyed by task id in
insertion order). -/
structure ExecutionState where
  runId : String
  totalTasks : Nat
  tasks : List (Nat × TaskStatus)
deriving DecidableEq, Repr

/-- The dictionary built inside `ExecutionState.save`. -/
def stateToDict (s : ExecutionState) : Json :=
  .obj [("run_id", .str s.runId),
        ("total_tasks", .num (toString s.totalTasks)),
        ("tasks", .obj (s.tasks.map (fun p =>
          (toString p.1,
           Json.obj [("task_id", .num (toString p.2.taskId)),
                     ("status", .str p.2.status),
                     ("docs_processed", .num (toString p.2.docsProcessed)),
                     ("error", match p.2.error with
                       | none => Json.null
                       | some e => Json.str e)]))))]

/-- `ExecutionState.save`: `path.write_text(json.dumps(data, indent=2))` —
again a single direct write. -/
def stateSave (dumps : Json → String) (s : ExecutionState) (path : String) :
    List FsOp :=
  [FsOp.writeText path (dumps (stateToDict s))]

/-- The write-to-sibling-temp-then-rename trace the spec prescribes for an
atomic save. -/
def IsAtomicTrace (ops : List FsOp) (path : String) : Prop :=
  ∃ tmp content, tmp ≠ path ∧
    ops = [FsOp.writeText tmp content, FsOp.rename tmp path]

/-! ## Resumable executor (`pipeline/executors/local.py`) -/

/-- `LocalExecutor._create_state`: all tasks start `pending`. -/
def createState (runId : String) (numTasks : Nat) : ExecutionState :=
  { runId := runId, totalTasks := numTasks,
    tasks := (List.range numTasks).map (fun i => (i, ⟨i, "pending", 0, none⟩)) }

/-- In-place update of one task record (`state.tasks[task_id].…`). -/
def updateTask (s : ExecutionState) (tid : Nat) (f : TaskStatus → TaskStatus) :
    ExecutionState :=
  { s with tasks := s.tasks.map (fun p => if p.1 = tid then (p.1, f p.2) else p) }

/-- `LocalExecutor._execute_sequential`: each task is marked `running`, then
`completed` with its document count, or `failed` with the error string.  The
pipeline run on shard `tid` is abstracted as `runTask : Nat → Except String
Nat`.  (The intermediate `state.save` calls do not change the state.) -/
def executeSeq (runTask : Nat → Except String Nat) (taskIds : List Nat)
    (s : ExecutionState) : ExecutionState :=
  taskIds.foldl (fun s tid =>
    let s1 := updateTask s tid (fun t => { t with status := "running" })
    match runTask tid with
    | .ok cnt =>
      updateTask s1 tid (fun t => { t with status := "completed", docsProcessed := cnt })
    | .error e =>
      updateTask s1 tid (fun t => { t with status := "failed", error := some e })) s

/-- The incomplete-task selection of `LocalExecutor.execute`. -/
def pendingTasks (s : ExecutionState) : List Nat :=
  (s.tasks.filter (fun p => p.2.status == "pending" || p.2.status == "failed")).map
    Prod.fst

/-- `LocalExecutor.execute` (sequential path, `num_workers = 1`): use the
persisted state when it exists and matches `run_id`, else a fresh one;
dispatch only pending/failed tasks; return the state unchanged when there
are none.  Returns the final state and the dispatched task ids. -/
def executeModel (runTask : Nat → Except String Nat)
    (persisted : Option ExecutionState) (runId : String) (numShards : Nat) :
    ExecutionState × List Nat :=
  let st := match persisted with
    | some s => if s.runId ≠ runId then createState runId numShards else s
    | none => createState runId numShards
  let pending := pendingTasks st
  if pending = [] then (st, [])
  else (executeSeq runTask pending st, pending)

/-! ## Helper lemmas -/

/-- Bumping a counter key leaves every other key's value unchanged. -/
theorem alookup_abumpInt_other {l : List (String × Int)} {k t : String} (n : Int)
    (h : t ≠ k) : alookup (abumpInt l k n) t = alookup l t := by
  induction l with
  | nil =>
    simp only [abumpInt, alookup]
    rw [if_neg (fun hh => h hh.symm)]
  | cons a rest ih =>
    obtain ⟨ak, av⟩ := a
    by_cases h1 : ak = k
    · subst h1
      simp only [abumpInt, if_pos rfl, alookup]
      rw [if_neg (fun hh => h hh.symm), if_neg (fun hh => h hh.symm)]
    · simp only [abumpInt, if_neg h1, alookup]
      by_cases h2 : ak = t
      · rw [if_pos h2, if_pos h2]
      · rw [if_neg h2, if_neg h2, ih]

/-- Bumping a counter key adds exactly `n` to that key's value. -/
theorem alookup_abumpInt_self (l : List (String × Int)) (k : String) (n : Int) :
    (alookup (abumpInt l k n) k).getD 0 = (alookup l k).getD 0 + n := by
  induction l with
  | nil => simp [abumpInt, alookup]
  | cons a rest ih =>
    obtain ⟨ak, av⟩ := a
    by_cases h1 : ak = k
    · subst h1
      simp [abumpInt, alookup]
    · simp only [abumpInt, if_neg h1, alookup, if_neg h1]
      exact ih

/-- `addTagStep` adds the doc's token count to the stepped tag's counter. -/
theorem sliceTokensGet_addTagStep_self (d : Doc) (s : SamplerState) (tag : String) :
    sliceTokensGet (addTagStep d s tag) tag = sliceTokensGet s tag + d.tokenCount := by
  simp only [sliceTokensGet, addTagStep]
  exact alookup_abumpInt_self s.sliceTokens tag d.tokenCount

/-- `addTagStep` leaves every other tag's counter unchanged. -/
theorem sliceTokensGet_addTagStep_other (d : Doc) (s : SamplerState) {tag t : String}
    (h : t ≠ tag) : sliceTokensGet (addTagStep d s tag) t = sliceTokensGet s t := by
  simp only [sliceTokensGet, addTagStep]
  rw [alookup_abumpInt_other d.tokenCount h]

/-- The accumulation loop over a tag list does not touch counters of tags not
in the list. -/
theorem sliceTokensGet_addTags_notmem (d : Doc) {t : String} :
    ∀ (tags : List String) (st : SamplerState), t ∉ tags →
      sliceTokensGet (tags.foldl (addTagStep d) st) t = sliceTokensGet st t := by
  intro tags
  induction tags with
  | nil => intro st _; rfl
  | cons tag tags ih =>
    intro st hmem
    simp only [List.foldl_cons]
    rw [ih (addTagStep d st tag) (fun hh => hmem (List.mem_cons_of_mem _ hh)),
      sliceTokensGet_addTagStep_other d st
        (fun hh => hmem (by rw [hh]; exact List.mem_cons_self _ _))]

/-- Over a duplicate-free tag list containing `t`, the accumulation loop adds
the doc's token count to `t`'s counter exactly once. -/
theorem sliceTokensGet_addTags_mem (d : Doc) {t : String} :
    ∀ (tags : List String) (st : SamplerState), tags.Nodup → t ∈ tags →
      sliceTokensGet (tags.foldl (addTagStep d) st) t = sliceTokensGet st t + d.tokenCount := by
  intro tags
  induction tags with
  | nil => intro st _ hmem; cases hmem
  | cons tag tags ih =>
    intro st hnd hmem
    simp only [List.foldl_cons]
    rcases List.mem_cons.1 hmem with heq | hmem'
    · subst heq
      rw [sliceTokensGet_addTags_notmem d tags (addTagStep d st t) (List.nodup_cons.1 hnd).1,
        sliceTokensGet_addTagStep_self]
    · have hne : t ≠ tag := fun hh => (List.nodup_cons.1 hnd).1 (hh ▸ hmem')
      rw [ih (addTagStep d st tag) (List.nodup_cons.1 hnd).2 hmem',
        sliceTokensGet_addTagStep_other d st hne]

/-- `_is_slice_capped` unfolded: true exactly when the tag has a configured
cap that the tag's counter has reached. -/
theorem isSliceCapped_iff {cfg : SamplingConfig} {caps : List (String × Int)}
    (hcfg : cfg.maxTokensPerSlice = some caps) (st : SamplerState) (t : String) :
    isSliceCapped cfg st t = true ↔
      ∃ c, alookup caps t = some c ∧ c ≤ sliceTokensGet st t := by
  unfold isSliceCapped
  rw [hcfg]
  cases h : alookup caps t with
  | none => simp [h]
  | some c => simp [h, ge_iff_le]

/-- Budget invariant of the `execute_policy` loop: the emitted token sum
equals `total_tokens`, and `total_tokens` never passes `max_tokens`. -/
theorem execLoop_budget {υ : Type} (upstream : υ → Doc → υ × Option Doc)
    (maxTokens : Int) (cfg : SamplingConfig) :
    ∀ (docs : List Doc) (u : υ) (s : ExecState),
      (s.emitted.map Doc.tokenCount).sum = s.totalTokens →
      s.totalTokens ≤ maxTokens →
      ((execLoop upstream maxTokens cfg docs u s).emitted.map Doc.tokenCount).sum
          = (execLoop upstream maxTokens cfg docs u s).totalTokens
        ∧ (execLoop upstream maxTokens cfg docs u s).totalTokens ≤ maxTokens := by
  intro docs
  induction docs with
  | nil => intro u s h1 h2; exact ⟨h1, h2⟩
  | cons doc rest ih =>
    intro u s h1 h2
    simp only [execLoop]
    rcases hu : upstream u doc with ⟨u', od⟩
    cases od with
    | none => exact ih u' s h1 h2
    | some d =>
      simp only []
      by_cases hb : s.totalTokens + d.tokenCount > maxTokens
      · rw [if_pos hb]; exact ⟨h1, h2⟩
      · rw [if_neg hb]
        rcases ha : addDocument cfg s.samplerSt d with ⟨st', b⟩
        cases b
        · exact ih u' s h1 h2
        · refine ih u' _ ?_ ?_
          · simp [h1]
          · show s.totalTokens + d.tokenCount ≤ maxTokens
            omega

/-- **C1.** Token budget respect: for every finite input stream, every
composition of upstream stages, and every non-negative `max_tokens`, the sum
of `token_count` over the documents `execute_policy` emits to output shards
is at most `max_tokens`; moreover the loop `break`s at the first surviving
document whose tokens would push the accumulated total past `max_tokens`,
leaving the state untouched. -/
theorem token_budget_respected {υ : Type} (upstream : υ → Doc → υ × Option Doc)
    (maxTokens : Int) (cfg : SamplingConfig) (docs : List Doc) (u0 : υ)
    (hmax : 0 ≤ maxTokens) :
    (((execPolicy upstream maxTokens cfg docs u0).emitted.map Doc.tokenCount).sum ≤ maxTokens)
    ∧ ∀ (doc : Doc) (rest : List Doc) (u u' : υ) (d : Doc) (s : ExecState),
        upstream u doc = (u', some d) →
        s.totalTokens + d.tokenCount > maxTokens →
        execLoop upstream maxTokens cfg (doc :: rest) u s = s := by
  constructor
  · have h := execLoop_budget upstream maxTokens cfg docs u0 {} (by rfl) (by simpa using hmax)
    rw [execPolicy, h.1]
    exact h.2
  · intro doc rest u u' d s hu hb
    simp only [execLoop]
    rw [hu]
    simp only []
    rw [if_pos hb]

/-- Witness for C1 at a concrete input: two 3-token documents against a
budget of 5; only the first is emitted. -/
theorem token_budget_respected_witness :
    ((execPolicy (fun (u : Unit) d => (u, some d)) 5 {}
        [⟨"a", "", 3, []⟩, ⟨"b", "", 3, []⟩] ()).emitted.map Doc.tokenCount).sum ≤ 5 :=
  (token_budget_respected (fun (u : Unit) d => (u, some d)) 5 {}
    [⟨"a", "", 3, []⟩, ⟨"b", "", 3, []⟩] () (by norm_num)).1

/-- Cap-bound preservation through one `add_document` call. -/
theorem addDocument_cap_step {cfg : SamplingConfig} {caps : List (String × Int)}
    (hcfg : cfg.maxTokensPerSlice = some caps) (B : Int) (d : Doc)
    (hd : 0 ≤ d.tokenCount ∧ d.tokenCount ≤ B ∧ d.sliceTags.Nodup)
    (st : SamplerState)
    (hst : ∀ t c, alookup caps t = some c → sliceTokensGet st t ≤ max 0 (c - 1 + B)) :
    ∀ t c, alookup caps t = some c →
      sliceTokensGet (addDocument cfg st d).1 t ≤ max 0 (c - 1 + B) := by
  intro t c hc
  unfold addDocument
  by_cases hrej : (d.sliceTags.any (fun tag => isSliceCapped cfg st tag)) = true
  · rw [if_pos hrej]
    exact hst t c hc
  · rw [if_neg hrej]
    by_cases hmem : t ∈ d.sliceTags
    · rw [sliceTokensGet_addTags_mem d d.sliceTags st hd.2.2 hmem]
      have hcap : ¬ isSliceCapped cfg st t = true := by
        intro hcap
        exact hrej (List.any_eq_true.2 ⟨t, hmem, hcap⟩)
      have hlt : ¬ (c ≤ sliceTokensGet st t) := by
        intro hle
        exact hcap ((isSliceCapped_iff hcfg st t).2 ⟨c, hc, hle⟩)
      have h1 := hd.1
      have h2 := hd.2.1
      have : sliceTokensGet st t + d.tokenCount ≤ c - 1 + B := by omega
      exact le_trans this (le_max_right 0 _)
    · rw [sliceTokensGet_addTags_notmem d d.sliceTags st hmem]
      exact hst t c hc

/-- Cap-bound invariant over an arbitrary `add_document` call sequence. -/
theorem addAll_cap_bound {cfg : SamplingConfig} {caps : List (String × Int)}
    (hcfg : cfg.maxTokensPerSlice = some caps) (B : Int) :
    ∀ (docs : List Doc),
      (∀ d ∈ docs, 0 ≤ d.tokenCount ∧ d.tokenCount ≤ B ∧ d.sliceTags.Nodup) →
      ∀ st, (∀ t c, alookup caps t = some c → sliceTokensGet st t ≤ max 0 (c - 1 + B)) →
      ∀ t c, alookup caps t = some c →
        sliceTokensGet (addAll cfg docs st) t ≤ max 0 (c - 1 + B) := by
  intro docs
  induction docs with
  | nil => intro _ st hst; exact hst
  | cons d docs ih =>
    intro hdocs st hst
    exact ih (fun x hx => hdocs x (List.mem_cons_of_mem _ hx)) (addDocument cfg st d).1
      (addDocument_cap_step hcfg B d (hdocs d (List.mem_cons_self _ _)) st hst)

/-- **C2** (amended).  Admission rejects a document exactly when one of its
slice tags has a configured cap that its counter has already reached; and for
every call sequence whose documents have token counts in `[0, B]` and
duplicate-free tag lists, each capped tag's counter stays at most
`max 0 (cap - 1 + B)` — strictly below `cap` before every admission, so a
single admitted document may overshoot the cap by at most `B`.  (The claim's
bound `counter ≤ cap` does not hold; see the counterexample.) -/
theorem slice_cap_respected (cfg : SamplingConfig) (caps : List (String × Int))
    (hcfg : cfg.maxTokensPerSlice = some caps) (B : Int) (docs : List Doc)
    (hdocs : ∀ d ∈ docs, 0 ≤ d.tokenCount ∧ d.tokenCount ≤ B ∧ d.sliceTags.Nodup) :
    (∀ (st : SamplerState) (d : Doc),
      (addDocument cfg st d).2 = false ↔
        ∃ t ∈ d.sliceTags, ∃ c, alookup caps t = some c ∧ c ≤ sliceTokensGet st t) ∧
    ∀ t c, alookup caps t = some c →
      sliceTokensGet (addAll cfg docs initSampler) t ≤ max 0 (c - 1 + B) := by
  constructor
  · intro st d
    unfold addDocument
    by_cases hrej : (d.sliceTags.any (fun tag => isSliceCapped cfg st tag)) = true
    · rw [if_pos hrej]
      constructor
      · intro _
        rcases List.any_eq_true.1 hrej with ⟨t, hmem, hcap⟩
        rcases (isSliceCapped_iff hcfg st t).1 hcap with ⟨c, hc, hle⟩
        exact ⟨t, hmem, c, hc, hle⟩
      · intro _; rfl
    · rw [if_neg hrej]
      constructor
      · intro h; simp at h
      · rintro ⟨t, hmem, c, hc, hle⟩
        exact absurd
          (List.any_eq_true.2 ⟨t, hmem, (isSliceCapped_iff hcfg st t).2 ⟨c, hc, hle⟩⟩) hrej
  · exact addAll_cap_bound hcfg B docs hdocs initSampler
      (fun t c _ => le_max_left 0 _)

/-- **C2** counterexample: with cap `max_tokens_per_slice = {t: 100}`, a
single 150-token document tagged `t` is admitted (the counter is 0, below the
cap), after which the accumulated tokens for `t` are 150 > 100 — the claim's
bound "total ≤ cap" is violated. -/
theorem slice_cap_counterexample :
    ((addDocument { maxTokensPerSlice := some [("t", 100)] } initSampler
        ⟨"d", "", 150, ["t"]⟩).2 = true)
    ∧ 100 < sliceTokensGet ((addDocument { maxTokensPerSlice := some [("t", 100)] } initSampler
        ⟨"d", "", 150, ["t"]⟩).1) "t" := by
  constructor
  · rfl
  · decide

/-- Witness for C2 at a concrete input: cap 100 on tag `w`, two 60-token
documents; the counter ends at 120 ≤ max 0 (100 - 1 + 60). -/
theorem slice_cap_respected_witness :
    sliceTokensGet (addAll { maxTokensPerSlice := some [("w", 100)] }
        [⟨"a", "", 60, ["w"]⟩, ⟨"b", "", 60, ["w"]⟩] initSampler) "w" ≤ max 0 (100 - 1 + 60) :=
  (slice_cap_respected { maxTokensPerSlice := some [("w", 100)] } [("w", 100)] rfl 60
    [⟨"a", "", 60, ["w"]⟩, ⟨"b", "", 60, ["w"]⟩] (by decide)).2 "w" 100 (by decide)

/-- `abucketAppend` preserves a per-bucket membership property when the
appended element satisfies it for its key. -/
theorem abucketAppend_prop {Q : String → Doc → Prop} (k : String) (x : Doc)
    (hx : Q k x) :
    ∀ (l : List (String × List Doc)), (∀ p ∈ l, ∀ y ∈ p.2, Q p.1 y) →
      ∀ p ∈ abucketAppend l k x, ∀ y ∈ p.2, Q p.1 y := by
  intro l
  induction l with
  | nil =>
    intro _ p hp y hy
    simp only [abucketAppend, List.mem_singleton] at hp
    subst hp
    simp only [List.mem_singleton] at hy
    subst hy
    exact hx
  | cons a rest ih =>
    intro h p hp y hy
    obtain ⟨ak, axs⟩ := a
    simp only [abucketAppend] at hp
    by_cases hk : ak = k
    · rw [if_pos hk] at hp
      rcases List.mem_cons.1 hp with heq | htail
      · subst heq
        rcases List.mem_append.1 hy with hy1 | hy2
        · exact h (ak, axs) (List.mem_cons_self _ _) y hy1
        · simp only [List.mem_singleton] at hy2
          subst hy2
          rw [hk]
          exact hx
      · exact h p (List.mem_cons_of_mem _ htail) y hy
    · rw [if_neg hk] at hp
      rcases List.mem_cons.1 hp with heq | htail
      · subst heq
        exact h (ak, axs) (List.mem_cons_self _ _) y hy
      · exact ih (fun q hq => h q (List.mem_cons_of_mem _ hq)) p htail y hy

/-- The tag-accumulation loop preserves the bucket invariant when every
stepped tag belongs to the document's tag list. -/
theorem bucketInv_addTags (d : Doc) :
    ∀ (tags : List String), (∀ t ∈ tags, t ∈ d.sliceTags) →
      ∀ st, BucketInv st → BucketInv (tags.foldl (addTagStep d) st) := by
  intro tags
  induction tags with
  | nil => intro _ st h; exact h
  | cons tag tags ih =>
    intro htags st h
    simp only [List.foldl_cons]
    refine ih (fun t ht => htags t (List.mem_cons_of_mem _ ht)) _ ?_
    intro p hp y hy
    exact @abucketAppend_prop (fun t y => t ∈ y.sliceTags) tag d
      (htags tag (List.mem_cons_self _ _)) st.sliceDocs h p hp y hy

/-- `add_document` preserves the bucket invariant. -/
theorem bucketInv_addDocument (cfg : SamplingConfig) (st : SamplerState) (d : Doc)
    (h : BucketInv st) : BucketInv (addDocument cfg st d).1 := by
  unfold addDocument
  by_cases hrej : (d.sliceTags.any (fun tag => isSliceCapped cfg st tag)) = true
  · rw [if_pos hrej]; exact h
  · rw [if_neg hrej]
    exact bucketInv_addTags d d.sliceTags (fun _ ht => ht) st h

/-- Any `add_document` call sequence preserves the bucket invariant. -/
theorem bucketInv_addAll (cfg : SamplingConfig) :
    ∀ (docs : List Doc) (st : SamplerState), BucketInv st →
      BucketInv (addAll cfg docs st) := by
  intro docs
  induction docs with
  | nil => intro st h; exact h
  | cons d docs ih =>
    intro st h
    exact ih (addDocument cfg st d).1 (bucketInv_addDocument cfg st d h)

/-- Documents collected by the inner pool fold all satisfy `C` when the
accumulator's and the bucket's documents do. -/
theorem poolInner_prop {C : Doc → Prop} (w : ℚ) :
    ∀ (ds : List Doc) (acc : List (Doc × ℚ) × List String),
      (∀ xw ∈ acc.1, C xw.1) → (∀ y ∈ ds, C y) →
      ∀ xw ∈ (ds.foldl (poolInner w) acc).1, C xw.1 := by
  intro ds
  induction ds with
  | nil => intro acc hacc _; exact hacc
  | cons d ds ih =>
    intro acc hacc hds
    simp only [List.foldl_cons]
    refine ih _ ?_ (fun y hy => hds y (List.mem_cons_of_mem _ hy))
    intro xw hxw
    unfold poolInner at hxw
    by_cases hseen : d.id ∈ acc.2
    · rw [if_pos hseen] at hxw
      exact hacc xw hxw
    · rw [if_neg hseen] at hxw
      rcases List.mem_append.1 hxw with h1 | h2
      · exact hacc xw h1
      · simp only [List.mem_singleton] at h2
        subst h2
        exact hds d (List.mem_cons_self _ _)

/-- Every document in the sampler's pool satisfies `C` when every bucketed
document does. -/
theorem samplePool_prop {C : Doc → Prop} (getW : String → ℚ) :
    ∀ (bs : List (String × List Doc)) (acc : List (Doc × ℚ) × List String),
      (∀ xw ∈ acc.1, C xw.1) → (∀ p ∈ bs, ∀ y ∈ p.2, C y) →
      ∀ xw ∈ (bs.foldl (poolOuter getW) acc).1, C xw.1 := by
  intro bs
  induction bs with
  | nil => intro acc hacc _; exact hacc
  | cons b bs ih =>
    intro acc hacc hbs
    simp only [List.foldl_cons]
    refine ih _ ?_ (fun p hp => hbs p (List.mem_cons_of_mem _ hp))
    exact poolInner_prop _ b.2 acc hacc (hbs b (List.mem_cons_self _ _) )

/-- Every document returned by the draw loop was already sampled or sits in
the remaining pool. -/
theorem sampleLoop_mem (rng : Nat → ℚ) :
    ∀ (fuel step : Nat) (remaining : List (Doc × ℚ)) (totalW : ℚ)
      (sampled : List Doc) (x : Doc),
      x ∈ sampleLoop rng fuel step remaining totalW sampled →
      x ∈ sampled ∨ ∃ w, (x, w) ∈ remaining := by
  intro fuel
  induction fuel with
  | zero => intro step remaining totalW sampled x hx; exact .inl hx
  | succ fuel ih =>
    intro step remaining totalW sampled x hx
    cases remaining with
    | nil => exact .inl hx
    | cons r rs =>
      simp only [sampleLoop] at hx
      cases hget : (r :: rs)[selectIdx (rng step * totalW) (r :: rs) 0 0]? with
      | none => rw [hget] at hx; exact .inl hx
      | some dw =>
        rw [hget] at hx
        obtain ⟨doc, w⟩ := dw
        rcases ih _ _ _ _ x hx with h1 | ⟨w', hw'⟩
        · rcases List.mem_append.1 h1 with h2 | h3
          · exact .inl h2
          · simp only [List.mem_singleton] at h3
            subst h3
            exact .inr ⟨w, List.getElem?_mem hget⟩
        · exact .inr ⟨w', List.eraseIdx_subset _ _ hw'⟩

/-- Under the bucket invariant, every document `sample` returns carries at
least one slice tag. -/
theorem sample_mem_tags (rng : Nat → ℚ) (getWs : String → ℚ)
    (st : SamplerState) (n : Nat) (hinv : BucketInv st) :
    ∀ x ∈ sample getWs rng st n, x.sliceTags ≠ [] := by
  intro x hx
  unfold sample at hx
  by_cases h1 : st.sliceDocs = []
  · rw [if_pos h1] at hx; cases hx
  · rw [if_neg h1] at hx
    by_cases h2 : samplePool getWs st = []
    · rw [if_pos h2] at hx; cases hx
    · rw [if_neg h2] at hx
      rcases sampleLoop_mem rng _ _ _ _ _ x hx with h3 | ⟨w, hw⟩
      · cases h3
      · refine @samplePool_prop (fun y => y.sliceTags ≠ []) getWs st.sliceDocs ([], [])
          (by intro xw hxw; cases hxw) ?_ (x, w) hw
        intro p hp y hy
        exact List.ne_nil_of_mem (hinv p hp y hy)

/-- **C10.** A document with no `slice_tags` entry (empty list) is always
admitted by `add_document` — the call returns `True` and leaves the sampler
state (token counters and buckets) unchanged — and such a document is never
returned by any subsequent `sample(n)` draw from a sampler populated by any
`add_document` call sequence. -/
theorem untagged_doc_admitted_never_sampled (cfg : SamplingConfig)
    (st : SamplerState) (d : Doc) (h : d.sliceTags = []) :
    addDocument cfg st d = (st, true) ∧
    ∀ (cfg2 : SamplingConfig) (docs : List Doc) (rng : Nat → ℚ)
      (getWs : String → ℚ) (n : Nat),
      d ∉ sample getWs rng (addAll cfg2 docs initSampler) n := by
  constructor
  · unfold addDocument
    rw [h]
    rfl
  · intro cfg2 docs rng getWs n hmem
    have hinv : BucketInv (addAll cfg2 docs initSampler) :=
      bucketInv_addAll cfg2 docs initSampler (by intro p hp; cases hp)
    exact sample_mem_tags rng getWs _ n hinv d hmem h

/-- Witness for C10 at a concrete input: the untagged document is admitted
with the state unchanged, and is absent from a concrete draw. -/
theorem untagged_doc_witness :
    (addDocument {} initSampler ⟨"x", "", 0, []⟩ = (initSampler, true)) ∧
    (⟨"x", "", 0, []⟩ : Doc) ∉
      sample (fun _ => 1) (fun _ => 0)
        (addAll {} [⟨"y", "", 1, ["s"]⟩] initSampler) 1 := by
  have h := untagged_doc_admitted_never_sampled {} initSampler ⟨"x", "", 0, []⟩ rfl
  exact ⟨h.1, h.2 {} [⟨"y", "", 1, ["s"]⟩] (fun _ => 0) (fun _ => 1) 1⟩

/-- Splitting an `alookup` miss over an append. -/
theorem alookup_append_none {α : Type} (l1 l2 : List (String × α)) (k : String) :
    alookup (l1 ++ l2) k = none ↔ alookup l1 k = none ∧ alookup l2 k = none := by
  induction l1 with
  | nil => simp [alookup]
  | cons a rest ih =>
    obtain ⟨ak, av⟩ := a
    by_cases hk : ak = k
    · simp [alookup, hk]
    · simp [alookup, hk, ih]

/-- An `alookup` miss on a one-entry list is exactly a key mismatch. -/
theorem alookup_single_none {α : Type} (k : String) (v : α) (x : String) :
    alookup [(k, v)] x = none ↔ k ≠ x := by
  by_cases hkx : k = x <;> simp [alookup, hkx]

/-- A kept (yielded) output of `ExactDedup.process` has a hash that was
unseen at the start of the run. -/
theorem exactProcess_kept_fresh (h : String → String) (nm : Bool) :
    ∀ (docs : List Doc) (seen : List (String × String)) (o : DedupOut),
      o ∈ exactProcess h nm docs seen → o.dropped = false →
      alookup seen o.contentHash = none := by
  intro docs
  induction docs with
  | nil => intro seen o ho _; simp [exactProcess] at ho
  | cons d rest ih =>
    intro seen o ho hkept
    cases hseen : alookup seen (h (normalizeText nm d.text)) with
    | some v =>
      simp only [exactProcess, exactCall, hseen] at ho
      rcases List.mem_cons.1 ho with rfl | htail
      · simp at hkept
      · exact ih seen o htail hkept
    | none =>
      simp only [exactProcess, exactCall, hseen] at ho
      rcases List.mem_cons.1 ho with rfl | htail
      · exact hseen
      · have := ih _ o htail hkept
        exact ((alookup_append_none seen _ o.contentHash).1 this).1

/-- First-occurrence characterisation of `ExactDedup.process`: an output is
kept (yielded) iff its hash misses the starting `_seen` map and no earlier
output of the same run carries the same hash. -/
theorem exactProcess_first_occurrence (h : String → String) (nm : Bool) :
    ∀ (docs : List Doc) (seen : List (String × String))
      (pre : List DedupOut) (o : DedupOut) (post : List DedupOut),
      exactProcess h nm docs seen = pre ++ o :: post →
      (o.dropped = false ↔
        (alookup seen o.contentHash = none ∧
         ∀ p ∈ pre, p.contentHash ≠ o.contentHash)) := by
  intro docs
  induction docs with
  | nil =>
    intro seen pre o post heq
    simp [exactProcess] at heq
  | cons d rest ih =>
    intro seen pre o post heq
    cases hseen : alookup seen (h (normalizeText nm d.text)) with
    | some v =>
      simp only [exactProcess, exactCall, hseen] at heq
      cases pre with
      | nil =>
        simp only [List.nil_append, List.cons.injEq] at heq
        obtain ⟨rfl, _⟩ := heq
        constructor
        · intro hk; simp at hk
        · rintro ⟨h1, _⟩
          rw [hseen] at h1
          cases h1
      | cons p0 pre' =>
        simp only [List.cons_append, List.cons.injEq] at heq
        obtain ⟨rfl, heq2⟩ := heq
        have hiff := ih seen pre' o post heq2
        constructor
        · intro hk
          obtain ⟨h1, h2⟩ := hiff.1 hk
          refine ⟨h1, ?_⟩
          intro p hp
          rcases List.mem_cons.1 hp with rfl | hp'
          · intro hcontr
            simp only at hcontr
            rw [← hcontr, hseen] at h1
            cases h1
          · exact h2 p hp'
        · rintro ⟨h1, h2⟩
          exact hiff.2 ⟨h1, fun p hp => h2 p (List.mem_cons_of_mem _ hp)⟩
    | none =>
      simp only [exactProcess, exactCall, hseen] at heq
      cases pre with
      | nil =>
        simp only [List.nil_append, List.cons.injEq] at heq
        obtain ⟨rfl, _⟩ := heq
        simp [hseen]
      | cons p0 pre' =>
        simp only [List.cons_append, List.cons.injEq] at heq
        obtain ⟨rfl, heq2⟩ := heq
        have hiff := ih _ pre' o post heq2
        rw [alookup_append_none, alookup_single_none] at hiff
        constructor
        · intro hk
          obtain ⟨⟨h1, h2⟩, h3⟩ := hiff.1 hk
          refine ⟨h1, ?_⟩
          intro p hp
          rcases List.mem_cons.1 hp with rfl | hp'
          · simpa using h2
          · exact h3 p hp'
        · rintro ⟨h1, h2⟩
          refine hiff.2 ⟨⟨h1, ?_⟩, fun p hp => h2 p (List.mem_cons_of_mem _ hp)⟩
          have hh := h2 _ (List.mem_cons_self _ _)
          simpa using hh

/-- Among the documents `ExactDedup.process` yields, all content hashes are
pairwise distinct. -/
theorem exactProcess_pairwise (h : String → String) (nm : Bool) :
    ∀ (docs : List Doc) (seen : List (String × String)),
      List.Pairwise (fun a b => a.contentHash ≠ b.contentHash)
        ((exactProcess h nm docs seen).filter (fun o => !o.dropped)) := by
  intro docs
  induction docs with
  | nil => intro seen; simp [exactProcess]
  | cons d rest ih =>
    intro seen
    cases hseen : alookup seen (h (normalizeText nm d.text)) with
    | some v =>
      simp only [exactProcess, exactCall, hseen, List.filter_cons]
      simpa using ih seen
    | none =>
      simp only [exactProcess, exactCall, hseen, List.filter_cons, Bool.not_false,
        eq_self_iff_true, if_true]
      refine List.pairwise_cons.2 ⟨?_, ih _⟩
      intro o ho
      have hmem := List.mem_filter.1 ho
      have hfresh := exactProcess_kept_fresh h nm rest _ o hmem.1 (by simpa using hmem.2)
      have hne := ((alookup_append_none seen _ o.contentHash).1 hfresh).2
      rw [alookup_single_none] at hne
      simpa using hne

/-- Structural facts about `ExactDedup.process`: documents pass through in
order, `content_hash` is the hash of the normalized text,
`dedup_cluster_id` is its first 16 characters, and dropped outputs carry
`dedup_method = "exact"`. -/
theorem exactProcess_shape (h : String → String) (nm : Bool) :
    ∀ (docs : List Doc) (seen : List (String × String)),
      ((exactProcess h nm docs seen).map DedupOut.doc = docs) ∧
      ∀ o ∈ exactProcess h nm docs seen,
        o.contentHash = h (normalizeText nm o.doc.text) ∧
        o.clusterId = o.contentHash.take 16 ∧
        (o.dropped = true → o.method = some "exact") := by
  intro docs
  induction docs with
  | nil => intro seen; exact ⟨rfl, fun o ho => by simp [exactProcess] at ho⟩
  | cons d rest ih =>
    intro seen
    cases hseen : alookup seen (h (normalizeText nm d.text)) with
    | some v =>
      simp only [exactProcess, exactCall, hseen]
      refine ⟨by simp [(ih seen).1], ?_⟩
      intro o ho
      rcases List.mem_cons.1 ho with rfl | htail
      · refine ⟨?_, ?_, ?_⟩
        · simp only [DedupOut.contentHash, DedupOut.doc]
        · simp only [DedupOut.clusterId, DedupOut.contentHash]
        · intro _
          simp only [DedupOut.method]
          simp
      · exact (ih seen).2 o htail
    | none =>
      simp only [exactProcess, exactCall, hseen]
      refine ⟨by simp [(ih _).1], ?_⟩
      intro o ho
      rcases List.mem_cons.1 ho with rfl | htail
      · refine ⟨?_, ?_, ?_⟩
        · simp only [DedupOut.contentHash, DedupOut.doc]
        · simp only [DedupOut.clusterId, DedupOut.contentHash]
        · intro hdrop
          simp only [DedupOut.dropped] at hdrop
          simp at hdrop
      · exact (ih _).2 o htail

/-- **C3.** Exact dedup correctness: for every hash function (SHA-256 in the
source) and every finite document stream, no two yielded outputs of
`ExactDedup.process` share the hash of their normalized text (lowercase,
whitespace collapsed, trimmed); an output is yielded iff no earlier document
of the stream bears the same hash (so the first bearer of each hash is
yielded); non-yielded outputs are marked `dedup_dropped = true` with
`dedup_method = "exact"`; documents pass through in order with
`content_hash` and `dedup_cluster_id` annotations. -/
theorem exact_dedup_correct (h : String → String) (docs : List Doc) :
    List.Pairwise (fun a b => a.contentHash ≠ b.contentHash)
      ((exactProcess h true docs []).filter (fun o => !o.dropped)) ∧
    (∀ pre o post, exactProcess h true docs [] = pre ++ o :: post →
      (o.dropped = false ↔ ∀ p ∈ pre, p.contentHash ≠ o.contentHash)) ∧
    (exactProcess h true docs []).map DedupOut.doc = docs ∧
    ∀ o ∈ exactProcess h true docs [],
      o.contentHash = h (normalizeText true o.doc.text) ∧
      o.clusterId = o.contentHash.take 16 ∧
      (o.dropped = true → o.method = some "exact") := by
  refine ⟨exactProcess_pairwise h true docs [], ?_,
    (exactProcess_shape h true docs []).1, (exactProcess_shape h true docs []).2⟩
  intro pre o post heq
  have hiff := exactProcess_first_occurrence h true docs [] pre o post heq
  simpa [alookup] using hiff

/-- Witness for C3 at a concrete input: three documents, the second a
normalized duplicate of the first; the stream passes through in order. -/
theorem exact_dedup_correct_witness :
    (exactProcess (fun s => s) true
      [⟨"a", "Hello  World", 0, []⟩, ⟨"b", "hello world", 0, []⟩, ⟨"c", "x", 0, []⟩]
      []).map DedupOut.doc =
      [⟨"a", "Hello  World", 0, []⟩, ⟨"b", "hello world", 0, []⟩, ⟨"c", "x", 0, []⟩] :=
  (exact_dedup_correct (fun s => s)
    [⟨"a", "Hello  World", 0, []⟩, ⟨"b", "hello world", 0, []⟩, ⟨"c", "x", 0, []⟩]).2.2.1

/-- A hit in the left part of an appended list is the hit of the whole. -/
theorem find?_append_some {α : Type} (p : α → Bool) {x : α} :
    ∀ (l1 : List α) (l2 : List α), List.find? p l1 = some x →
      List.find? p (l1 ++ l2) = some x := by
  intro l1 l2
  induction l1 with
  | nil => intro h; cases h
  | cons a rest ih =>
    intro h
    by_cases hp : p a
    · rw [List.find?_cons_of_pos _ hp] at h
      simpa [List.find?_cons_of_pos _ hp] using h
    · rw [List.find?_cons_of_neg _ (by simpa using hp)] at h
      simpa [List.find?_cons_of_neg _ (by simpa using hp)] using ih h

/-- A miss in the left part of an appended list defers to the right part. -/
theorem find?_append_none {α : Type} (p : α → Bool) :
    ∀ (l1 : List α) (l2 : List α), List.find? p l1 = none →
      List.find? p (l1 ++ l2) = List.find? p l2 := by
  intro l1 l2
  induction l1 with
  | nil => intro _; rfl
  | cons a rest ih =>
    intro h
    by_cases hp : p a
    · rw [List.find?_cons_of_pos _ hp] at h; cases h
    · rw [List.find?_cons_of_neg _ (by simpa using hp)] at h
      simpa [List.find?_cons_of_neg _ (by simpa using hp)] using ih h

/-- The inner candidate loop of `_find_cluster` returns the cluster of the
first candidate (in insertion order) that has a cluster assignment. -/
theorem firstAssigned_eq (dc : List (String × String)) :
    ∀ cands, firstAssigned dc cands =
      (cands.find? (fun c => (alookup dc c).isSome)).bind (alookup dc) := by
  intro cands
  induction cands with
  | nil => rfl
  | cons cand rest ih =>
    cases h : alookup dc cand with
    | some cl =>
      simp only [firstAssigned, h]
      rw [List.find?_cons_of_pos _ (by simp [h])]
      simp [h]
    | none =>
      simp only [firstAssigned, h]
      rw [List.find?_cons_of_neg _ (by simp [h])]
      exact ih

/-- `_find_cluster` returns the cluster of the first assigned candidate in
the band-by-band, insertion-ordered scan. -/
theorem findClusterFrom_eq (st : MinHashState) :
    ∀ (bhs : List Int) (i : Nat),
      findClusterFrom st i bhs =
        ((scanCandidates st i bhs).find?
          (fun c => (alookup st.docClusters c).isSome)).bind (alookup st.docClusters) := by
  intro bhs
  induction bhs with
  | nil => intro i; rfl
  | cons bh rest ih =>
    intro i
    simp only [findClusterFrom, scanCandidates]
    rw [firstAssigned_eq]
    cases hf : List.find? (fun c => (alookup st.docClusters c).isSome)
        ((alookup st.buckets (i, bh)).getD []) with
    | none =>
      rw [find?_append_none _ _ _ hf]
      simpa using ih (i + 1)
    | some c =>
      rw [find?_append_some _ _ _ hf]
      have hsome : (alookup st.docClusters c).isSome := by
        simpa using List.find?_some hf
      obtain ⟨cl, hcl⟩ := Option.isSome_iff_exists.1 hsome
      simp [hcl]

/-- Appending to a bucket: the touched key's bucket gains the element. -/
theorem abucketAppend_lookup_self {κ α : Type} [DecidableEq κ] (k : κ) (x : α) :
    ∀ l, alookup (abucketAppend l k x) k = some ((alookup l k).getD [] ++ [x]) := by
  intro l
  induction l with
  | nil => simp [abucketAppend, alookup]
  | cons a rest ih =>
    obtain ⟨ak, axs⟩ := a
    by_cases hk : ak = k
    · subst hk
      simp [abucketAppend, alookup]
    · simp only [abucketAppend, if_neg hk, alookup, if_neg hk]
      exact ih

/-- Appending to a bucket leaves every other key's bucket unchanged. -/
theorem abucketAppend_lookup_other {κ α : Type} [DecidableEq κ] {k k' : κ} (x : α)
    (h : k' ≠ k) : ∀ l, alookup (abucketAppend l k x) k' = alookup l k' := by
  intro l
  induction l with
  | nil =>
    simp only [abucketAppend, alookup]
    rw [if_neg (fun hh => h hh.symm)]
  | cons a rest ih =>
    obtain ⟨ak, axs⟩ := a
    by_cases hk : ak = k
    · subst hk
      simp only [abucketAppend, if_pos rfl, alookup]
      rw [if_neg (fun hh => h hh.symm), if_neg (fun hh => h hh.symm)]
    · simp only [abucketAppend, if_neg hk, alookup]
      by_cases h2 : ak = k'
      · rw [if_pos h2, if_pos h2]
      · rw [if_neg h2, if_neg h2, ih]

/-- `_add_to_buckets` starting at band `i0` never touches a lower band. -/
theorem addToBuckets_lookup_lowband (docId : String) :
    ∀ (bhs : List Int) (i0 : Nat) (l : List ((Nat × Int) × List String))
      (key : Nat × Int), key.1 < i0 →
      alookup (addToBuckets docId l i0 bhs) key = alookup l key := by
  intro bhs
  induction bhs with
  | nil => intro i0 l key _; rfl
  | cons bh rest ih =>
    intro i0 l key hk
    simp only [addToBuckets]
    rw [ih (i0 + 1) _ key (Nat.lt_succ_of_lt hk)]
    exact abucketAppend_lookup_other docId
      (fun he => absurd (congrArg Prod.fst he) (by simp; omega)) l

/-- `_add_to_buckets` appends the doc id to the bucket of every band of the
signature. -/
theorem addToBuckets_lookup_mem (docId : String) :
    ∀ (bhs : List Int) (i0 : Nat) (l : List ((Nat × Int) × List String))
      (p : Nat × Int), p ∈ bhs.enumFrom i0 →
      alookup (addToBuckets docId l i0 bhs) p =
        some ((alookup l p).getD [] ++ [docId]) := by
  intro bhs
  induction bhs with
  | nil => intro i0 l p hp; simp [List.enumFrom] at hp
  | cons bh rest ih =>
    intro i0 l p hp
    simp only [List.enumFrom] at hp
    rcases List.mem_cons.1 hp with rfl | htail
    · simp only [addToBuckets]
      rw [addToBuckets_lookup_lowband docId rest (i0 + 1) _ (i0, bh) (Nat.lt_succ_self i0)]
      exact abucketAppend_lookup_self (i0, bh) docId l
    · have hge : i0 + 1 ≤ p.1 := List.le_fst_of_mem_enumFrom htail
      simp only [addToBuckets]
      rw [ih (i0 + 1) _ p htail,
        abucketAppend_lookup_other docId
          (fun he => absurd (congrArg Prod.fst he) (by simp; omega)) l]

/-- **C4.** MinHash LSH clustering, first-writer-wins: `_find_cluster`
returns the cluster of the first previously-seen doc id found by scanning
bands in order and bucket members in insertion order; when it finds one, the
document joins that cluster, is flagged `dedup_dropped = true` and is not
yielded; otherwise a new cluster keyed by the document's id is created and
the document is yielded; in both cases the doc id is appended to the buckets
of all its bands. -/
theorem minhash_first_writer_wins (bandFn : String → List Int)
    (st : MinHashState) (doc : Doc) (rest : List Doc) :
    (findClusterFrom st 0 (bandFn doc.text) =
      ((scanCandidates st 0 (bandFn doc.text)).find?
          (fun c => (alookup st.docClusters c).isSome)).bind (alookup st.docClusters)) ∧
    (∀ cl, findClusterFrom st 0 (bandFn doc.text) = some cl →
      (minhashAdd bandFn st doc).1 = (false, cl) ∧
      (minhashAdd bandFn st doc).2.docClusters = aset st.docClusters doc.id cl ∧
      (minhashAdd bandFn st doc).2.clusterDocs = abucketAppend st.clusterDocs cl doc.id ∧
      minhashProcess bandFn (doc :: rest) st =
        ⟨doc, cl.take 16, true, some "minhash"⟩ ::
          minhashProcess bandFn rest (minhashAdd bandFn st doc).2) ∧
    (findClusterFrom st 0 (bandFn doc.text) = none →
      (minhashAdd bandFn st doc).1 = (true, doc.id) ∧
      (minhashAdd bandFn st doc).2.docClusters = aset st.docClusters doc.id doc.id ∧
      (minhashAdd bandFn st doc).2.clusterDocs = abucketAppend st.clusterDocs doc.id doc.id ∧
      minhashProcess bandFn (doc :: rest) st =
        ⟨doc, doc.id.take 16, false, some "minhash"⟩ ::
          minhashProcess bandFn rest (minhashAdd bandFn st doc).2) ∧
    (∀ p ∈ (bandFn doc.text).enum,
      alookup (minhashAdd bandFn st doc).2.buckets p =
        some ((alookup st.buckets p).getD [] ++ [doc.id])) := by
  refine ⟨findClusterFrom_eq st (bandFn doc.text) 0, ?_, ?_, ?_⟩
  · intro cl h
    refine ⟨?_, ?_, ?_, ?_⟩ <;>
      simp only [minhashAdd, minhashProcess, h, Bool.not_false, Bool.not_true]
  · intro h
    refine ⟨?_, ?_, ?_, ?_⟩ <;>
      simp only [minhashAdd, minhashProcess, h, Bool.not_false, Bool.not_true]
  · intro p hp
    cases h : findClusterFrom st 0 (bandFn doc.text) with
    | none =>
      simp only [minhashAdd, h]
      exact addToBuckets_lookup_mem doc.id (bandFn doc.text) 0 st.buckets p hp
    | some cl =>
      simp only [minhashAdd, h]
      exact addToBuckets_lookup_mem doc.id (bandFn doc.text) 0 st.buckets p hp

/-- Witness for C4 at a concrete input: a single one-band document entering
an empty index creates its own cluster and is yielded. -/
theorem minhash_witness :
    minhashProcess (fun _ => [(7 : Int)]) [⟨"a", "t", 0, []⟩] {} =
      ⟨⟨"a", "t", 0, []⟩, "a".take 16, false, some "minhash"⟩ ::
        minhashProcess (fun _ => [(7 : Int)]) []
          (minhashAdd (fun _ => [(7 : Int)]) {} ⟨"a", "t", 0, []⟩).2 :=
  ((minhash_first_writer_wins (fun _ => [(7 : Int)]) {} ⟨"a", "t", 0, []⟩ []).2.2.1 rfl).2.2.2

/-- In `drop` mode, `process` returns the document iff the check declared it
uncontaminated. -/
theorem decontamProcessDoc_drop (hashFn : String → Int) (st : DecontamState)
    (doc : Doc) (hmode : st.mode = .drop) :
    (decontamProcessDoc hashFn st doc).1 =
      if (decontamCheck hashFn st doc).isContaminated = false then some doc
      else none := by
  unfold decontamProcessDoc
  by_cases hc : (decontamCheck hashFn st doc).isContaminated = false
  · simp [hc]
  · simp [hc, hmode]

/-- In `drop` mode, every document yielded by `process_stream` was declared
uncontaminated (and passes through unchanged). -/
theorem decontam_stream_uncontaminated (hashFn : String → Int) (st : DecontamState)
    (hmode : st.mode = .drop) :
    ∀ (docs : List Doc) (d : Doc), d ∈ decontamProcessStream hashFn st docs →
      (decontamCheck hashFn st d).isContaminated = false := by
  intro docs
  induction docs with
  | nil => intro d hd; cases hd
  | cons a rest ih =>
    intro d hd
    simp only [decontamProcessStream, decontamProcessDoc_drop hashFn st a hmode] at hd
    by_cases hc : (decontamCheck hashFn st a).isContaminated = false
    · rw [if_pos hc] at hd
      rcases List.mem_cons.1 hd with rfl | htail
      · exact hc
      · exact ih d htail
    · rw [if_neg hc] at hd
      exact ih d hd

/-- **C5** (amended).  With `mode = drop` and `0 < overlap_threshold ≤ 1`,
no document yielded by `process_stream` has an overlap score reaching the
threshold, and a document is declared contaminated exactly when its overlap
score is ≥ the threshold.  (The claim's precondition `threshold ≤ 1` alone
is not enough: at `threshold = 0` the early returns of `check` report
score 0 as uncontaminated although 0 ≥ 0; see the counterexample.) -/
theorem decontam_containment (hashFn : String → Int) (st : DecontamState)
    (docs : List Doc) (hmode : st.mode = .drop)
    (hpos : 0 < st.overlapThreshold) (hle : st.overlapThreshold ≤ 1) :
    (∀ d ∈ decontamProcessStream hashFn st docs,
      ¬ ((decontamCheck hashFn st d).overlapScore ≥ st.overlapThreshold)) ∧
    (∀ d : Doc, (decontamCheck hashFn st d).isContaminated = true ↔
      (decontamCheck hashFn st d).overlapScore ≥ st.overlapThreshold) := by
  have hiff : ∀ d : Doc, (decontamCheck hashFn st d).isContaminated = true ↔
      (decontamCheck hashFn st d).overlapScore ≥ st.overlapThreshold := by
    intro d
    unfold decontamCheck
    by_cases h1 : st.evalNgrams = []
    · simp only [if_pos h1]
      constructor
      · intro h; cases h
      · intro h
        exact absurd (lt_of_lt_of_le hpos h) (lt_irrefl _)
    · rw [if_neg h1]
      by_cases h2 : extractNgrams st.ngramSize d.text = []
      · rw [if_pos h2]
        constructor
        · intro h; cases h
        · intro h
          exact absurd (lt_of_lt_of_le hpos h) (lt_irrefl _)
      · rw [if_neg h2]
        simp
  refine ⟨?_, hiff⟩
  intro d hd hscore
  have hc := decontam_stream_uncontaminated hashFn st hmode docs d hd
  rw [← (hiff d)] at hscore
  rw [hc] at hscore
  cases hscore

/-- **C5** counterexample: with `threshold = 0`, `mode = drop` and an empty
eval index, any document is yielded although its overlap score 0 is ≥ the
threshold, and it is declared uncontaminated although its score is ≥ the
threshold — the claim fails at `threshold = 0` even though `threshold ≤ 1`. -/
theorem decontam_containment_counterexample :
    decontamProcessStream (fun _ => 0) ⟨13, 0, .drop, 10, []⟩ [⟨"d", "hello", 0, []⟩] =
      [⟨"d", "hello", 0, []⟩] ∧
    (decontamCheck (fun _ => 0) ⟨13, 0, .drop, 10, []⟩ ⟨"d", "hello", 0, []⟩).overlapScore ≥
      (0 : ℚ) ∧
    (decontamCheck (fun _ => 0) ⟨13, 0, .drop, 10, []⟩
      ⟨"d", "hello", 0, []⟩).isContaminated = false := by
  refine ⟨rfl, ?_, rfl⟩
  norm_num [decontamCheck]

/-- Witness for C5 at a concrete input: a one-ngram index with threshold
1/2; the contamination verdict matches the score comparison. -/
theorem decontam_containment_witness :
    (decontamCheck (fun _ => 5) ⟨1, 1/2, .drop, 10, [("src", [5])]⟩
        ⟨"d", "bad", 0, []⟩).isContaminated = true ↔
      (decontamCheck (fun _ => 5) ⟨1, 1/2, .drop, 10, [("src", [5])]⟩
        ⟨"d", "bad", 0, []⟩).overlapScore ≥ (1 / 2 : ℚ) :=
  (decontam_containment (fun _ => 5) ⟨1, 1/2, .drop, 10, [("src", [5])]⟩ []
    rfl (by norm_num) (by norm_num)).2 ⟨"d", "bad", 0, []⟩

/-- **C7** counterexample: a concrete manifest save and a concrete execution
state save each emit a single direct `write_text` of the target file — not a
write-to-temp-plus-rename pair — so the claimed atomic write protocol is not
what the code does. -/
theorem save_not_atomic_counterexample :
    (manifestSave (fun _ => "S")
        ⟨"id", "t", [], Json.null, "", "", false, 0, "jsonl.zst", [], Json.null⟩
        "manifest.json" = [FsOp.writeText "manifest.json" "S"]) ∧
    ¬ IsAtomicTrace (manifestSave (fun _ => "S")
        ⟨"id", "t", [], Json.null, "", "", false, 0, "jsonl.zst", [], Json.null⟩
        "manifest.json") "manifest.json" ∧
    (stateSave (fun _ => "T") ⟨"run", 0, []⟩ "execution_state.json" =
      [FsOp.writeText "execution_state.json" "T"]) ∧
    ¬ IsAtomicTrace (stateSave (fun _ => "T") ⟨"run", 0, []⟩
        "execution_state.json") "execution_state.json" := by
  refine ⟨rfl, ?_, rfl, ?_⟩
  · rintro ⟨tmp, content, _, heq⟩
    simp [manifestSave] at heq
  · rintro ⟨tmp, content, _, heq⟩
    simp [stateSave] at heq

/-- **C7** (amended).  Every save of `manifest.json`
(`DatasetManifest.save`) and of `execution_state.json`
(`ExecutionState.save`) performs exactly one filesystem operation: a direct
`write_text` of the full serialized JSON to the target path.  No sibling
temp file is written and no rename is performed, so the write-to-temp +
rename atomicity the spec claims is absent. -/
theorem save_single_direct_write (dumpsM dumpsS : Json → String)
    (m : DatasetManifest) (s : ExecutionState) (p q : String) :
    manifestSave dumpsM m p = [FsOp.writeText p (dumpsM (manifestToDict m))] ∧
    stateSave dumpsS s q = [FsOp.writeText q (dumpsS (stateToDict s))] ∧
    ∀ op ∈ manifestSave dumpsM m p ++ stateSave dumpsS s q,
      ∀ a b, op ≠ FsOp.rename a b := by
  refine ⟨rfl, rfl, ?_⟩
  intro op hop a b
  rcases List.mem_append.1 hop with h | h <;>
    · simp only [manifestSave, stateSave, List.mem_singleton] at h
      subst h
      intro hcontr
      cases hcontr

/-- Entries stay in the task table when their key is not the updated one. -/
theorem updateTask_preserves {s : ExecutionState} {k : Nat} {t : TaskStatus}
    (tid : Nat) (f : TaskStatus → TaskStatus) (hk : k ≠ tid)
    (h : (k, t) ∈ s.tasks) : (k, t) ∈ (updateTask s tid f).tasks := by
  unfold updateTask
  have := List.mem_map_of_mem
    (fun p : Nat × TaskStatus => if p.1 = tid then (p.1, f p.2) else p) h
  simpa [hk] using this

/-- A task not among the dispatched ids keeps its record through
`_execute_sequential`. -/
theorem executeSeq_preserves (runTask : Nat → Except String Nat) :
    ∀ (tids : List Nat) (s : ExecutionState) (k : Nat) (t : TaskStatus),
      k ∉ tids → (k, t) ∈ s.tasks → (k, t) ∈ (executeSeq runTask tids s).tasks := by
  intro tids
  induction tids with
  | nil => intro s k t _ h; exact h
  | cons tid rest ih =>
    intro s k t hk h
    have hkt : k ≠ tid := fun he => hk (he ▸ List.mem_cons_self _ _)
    have hkr : k ∉ rest := fun he => hk (List.mem_cons_of_mem _ he)
    simp only [executeSeq, List.foldl_cons]
    cases hr : runTask tid with
    | ok cnt =>
      refine ih _ k t hkr ?_
      simp only [hr]
      exact updateTask_preserves tid _ hkt (updateTask_preserves tid _ hkt h)
    | error e =>
      refine ih _ k t hkr ?_
      simp only [hr]
      exact updateTask_preserves tid _ hkt (updateTask_preserves tid _ hkt h)

/-- With duplicate-free keys, a key determines its record. -/
theorem mem_unique_of_nodup_keys {t t' : TaskStatus} :
    ∀ (l : List (Nat × TaskStatus)) (k : Nat), (l.map Prod.fst).Nodup →
      (k, t) ∈ l → (k, t') ∈ l → t = t' := by
  intro l
  induction l with
  | nil => intro k _ h; cases h
  | cons a rest ih =>
    intro k hnd h1 h2
    obtain ⟨ak, av⟩ := a
    simp only [List.map_cons, List.nodup_cons] at hnd
    rcases List.mem_cons.1 h1 with heq1 | h1'
    · injection heq1 with hk1 hv1
      rcases List.mem_cons.1 h2 with heq2 | h2'
      · injection heq2 with hk2 hv2
        exact hv1.trans hv2.symm
      · exfalso
        have hin : k ∈ List.map Prod.fst rest := by
          simpa using List.mem_map_of_mem Prod.fst h2'
        rw [← hk1] at hnd
        exact hnd.1 hin
    · rcases List.mem_cons.1 h2 with heq2 | h2'
      · injection heq2 with hk2 hv2
        exfalso
        have hin : k ∈ List.map Prod.fst rest := by
          simpa using List.mem_map_of_mem Prod.fst h1'
        rw [← hk2] at hnd
        exact hnd.1 hin
      · exact ih k hnd.2 h1' h2'

/-- **C8.** Resumability without re-execution: when a persisted execution
state exists with the requested `run_id` (and well-formed, duplicate-free
task keys), `execute` dispatches exactly the pending/failed tasks; every
completed task is not dispatched and its record survives unchanged; and
when no task is pending or failed the loaded state is returned as is. -/
theorem resumability (runTask : Nat → Except String Nat) (s : ExecutionState)
    (runId : String) (numShards : Nat)
    (hrun : s.runId = runId) (hnd : (s.tasks.map Prod.fst).Nodup) :
    ((executeModel runTask (some s) runId numShards).2 = pendingTasks s) ∧
    (∀ tid ∈ (executeModel runTask (some s) runId numShards).2,
      ∃ t, (tid, t) ∈ s.tasks ∧ (t.status = "pending" ∨ t.status = "failed")) ∧
    (∀ k t, (k, t) ∈ s.tasks → t.status = "completed" →
      k ∉ (executeModel runTask (some s) runId numShards).2 ∧
      (k, t) ∈ (executeModel runTask (some s) runId numShards).1.tasks) ∧
    (pendingTasks s = [] →
      executeModel runTask (some s) runId numShards = (s, [])) := by
  subst hrun
  have hload : executeModel runTask (some s) s.runId numShards =
      (if pendingTasks s = [] then (s, [])
       else (executeSeq runTask (pendingTasks s) s, pendingTasks s)) := by
    simp [executeModel]
  have hmem : ∀ tid ∈ pendingTasks s,
      ∃ t, (tid, t) ∈ s.tasks ∧ (t.status = "pending" ∨ t.status = "failed") := by
    intro tid htid
    unfold pendingTasks at htid
    rcases List.mem_map.1 htid with ⟨p, hp, rfl⟩
    rcases List.mem_filter.1 hp with ⟨hp1, hp2⟩
    refine ⟨p.2, hp1, ?_⟩
    simpa [Bool.or_eq_true, beq_iff_eq] using hp2
  have hcomp : ∀ k t, (k, t) ∈ s.tasks → t.status = "completed" →
      k ∉ pendingTasks s := by
    intro k t hkt hst hk
    rcases hmem k hk with ⟨t', ht', hstat⟩
    have heqt := mem_unique_of_nodup_keys s.tasks k hnd hkt ht'
    rcases hstat with hs1 | hs1 <;>
      · rw [← heqt, hst] at hs1
        simp at hs1
  by_cases hpend : pendingTasks s = []
  · rw [hload, if_pos hpend]
    refine ⟨by simpa using hpend.symm, ?_, ?_, fun _ => rfl⟩
    · intro tid htid
      simp at htid
    · intro k t hkt _
      exact ⟨by simp, hkt⟩
  · rw [hload, if_neg hpend]
    refine ⟨rfl, hmem, ?_, fun hc => absurd hc hpend⟩
    intro k t hkt hst
    have hnotin := hcomp k t hkt hst
    exact ⟨hnotin, executeSeq_preserves runTask (pendingTasks s) s k t hnotin hkt⟩

/-- Witness for C8 at a concrete input: a loaded state with one completed
and one pending task; the completed task is not dispatched and its record
survives unchanged. -/
theorem resumability_witness :
    (0 ∉ (executeModel (fun _ => Except.ok 3)
        (some ⟨"r", 2, [(0, ⟨0, "completed", 5, none⟩), (1, ⟨1, "pending", 0, none⟩)]⟩)
        "r" 2).2) ∧
    ((0 : Nat), (⟨0, "completed", 5, none⟩ : TaskStatus)) ∈
      (executeModel (fun _ => Except.ok 3)
        (some ⟨"r", 2, [(0, ⟨0, "completed", 5, none⟩), (1, ⟨1, "pending", 0, none⟩)]⟩)
        "r" 2).1.tasks :=
  (resumability (fun _ => Except.ok 3)
    ⟨"r", 2, [(0, ⟨0, "completed", 5, none⟩), (1, ⟨1, "pending", 0, none⟩)]⟩
    "r" 2 rfl (by decide)).2.2.1 0 ⟨0, "completed", 5, none⟩
    (List.mem_cons_self _ _) rfl

/-- Rule failures recorded by the rule loop all satisfy `P` when every
failing rule evaluation does. -/
theorem qualityFold_failed_prop (cfg : QualityConfig) (text : String) {P : String → Prop}
    (hrule : ∀ r p s, ruleEval cfg r text = some (p, s) → p = false → P r) :
    ∀ (rules : List String) (acc : List (String × ℚ) × List String),
      (∀ r ∈ acc.2, P r) → ∀ r ∈ (rules.foldl (qualityStep cfg text) acc).2, P r := by
  intro rules
  induction rules with
  | nil => intro acc hacc; exact hacc
  | cons rule rules ih =>
    intro acc hacc
    simp only [List.foldl_cons]
    refine ih _ ?_
    unfold qualityStep
    cases he : ruleEval cfg rule text with
    | none => exact hacc
    | some ps =>
      obtain ⟨p, s⟩ := ps
      cases p
      · simp only [Bool.false_eq_true, if_neg]
        intro r hr
        rcases List.mem_append.1 hr with h1 | h2
        · exact hacc r h1
        · simp only [List.mem_singleton] at h2
          subst h2
          exact hrule r false s he rfl
      · simpa using hacc

/-- A rule absent from the rule table leaves the accumulator unchanged. -/
theorem qualityStep_none (cfg : QualityConfig) (text rule : String)
    (acc : List (String × ℚ) × List String) (he : ruleEval cfg rule text = none) :
    qualityStep cfg text acc rule = acc := by
  simp [qualityStep, he]

/-- A rule in the rule table appends its score, and its name on failure. -/
theorem qualityStep_some (cfg : QualityConfig) (text rule : String)
    (acc : List (String × ℚ) × List String) (p : Bool) (s : ℚ)
    (he : ruleEval cfg rule text = some (p, s)) :
    qualityStep cfg text acc rule =
      (acc.1 ++ [(rule, s)], if p then acc.2 else acc.2 ++ [rule]) := by
  simp [qualityStep, he]

/-- The score list records one entry per enabled rule present in the rule
table, in order, whether the rule passed or failed. -/
theorem qualityFold_scores (cfg : QualityConfig) (text : String) :
    ∀ (rules : List String) (acc : List (String × ℚ) × List String),
      ((rules.foldl (qualityStep cfg text) acc).1).map Prod.fst =
        acc.1.map Prod.fst ++ rules.filter (fun r => (ruleEval cfg r text).isSome) := by
  intro rules
  induction rules with
  | nil => intro acc; simp
  | cons rule rules ih =>
    intro acc
    simp only [List.foldl_cons, List.filter_cons]
    cases he : ruleEval cfg rule text with
    | none =>
      rw [qualityStep_none cfg text rule acc he]
      simp [he, ih]
    | some ps =>
      obtain ⟨p, s⟩ := ps
      rw [qualityStep_some cfg text rule acc p s he]
      simp [he, ih]

/-- On the empty text, a failing rule evaluation can only come from the two
word-count rules. -/
theorem ruleEval_empty_fail (cfg : QualityConfig) :
    ∀ r p s, ruleEval cfg r "" = some (p, s) → p = false →
      r = "min_words" ∨ r = "max_words" := by
  intro r p s he hp
  unfold ruleEval at he
  by_cases h1 : r = "word_rep"
  · rw [if_pos h1, show checkWordRep cfg "" = (true, 0) from rfl] at he
    injection he with hh; injection hh with hb hs2; rw [← hb] at hp; cases hp
  rw [if_neg h1] at he
  by_cases h2 : r = "line_rep"
  · rw [if_pos h2, show checkLineRep cfg "" = (true, 0) from rfl] at he
    injection he with hh; injection hh with hb hs2; rw [← hb] at hp; cases hp
  rw [if_neg h2] at he
  by_cases h3 : r = "char_rep"
  · rw [if_pos h3, show checkCharRep cfg "" = (true, 0) from rfl] at he
    injection he with hh; injection hh with hb hs2; rw [← hb] at hp; cases hp
  rw [if_neg h3] at he
  by_cases h4 : r = "min_words"
  · exact Or.inl h4
  rw [if_neg h4] at he
  by_cases h5 : r = "max_words"
  · exact Or.inr h5
  rw [if_neg h5] at he
  by_cases h6 : r = "avg_word_length"
  · rw [if_pos h6, show checkAvgWordLength cfg "" = (true, 0) from rfl] at he
    injection he with hh; injection hh with hb hs2; rw [← hb] at hp; cases hp
  rw [if_neg h6] at he
  by_cases h7 : r = "sentence_end"
  · rw [if_pos h7, show checkSentenceEndings cfg "" = (true, 0) from rfl] at he
    injection he with hh; injection hh with hb hs2; rw [← hb] at hp; cases hp
  rw [if_neg h7] at he
  by_cases h8 : r = "ellipsis"
  · rw [if_pos h8, show checkEllipsis cfg "" = (true, 0) from rfl] at he
    injection he with hh; injection hh with hb hs2; rw [← hb] at hp; cases hp
  rw [if_neg h8] at he
  by_cases h9 : r = "bullet"
  · rw [if_pos h9, show checkBullets cfg "" = (true, 0) from rfl] at he
    injection he with hh; injection hh with hb hs2; rw [← hb] at hp; cases hp
  rw [if_neg h9] at he
  by_cases h10 : r = "curly_brace"
  · rw [if_pos h10, show checkCurlyBraces cfg "" = (true, 0) from rfl] at he
    injection he with hh; injection hh with hb hs2; rw [← hb] at hp; cases hp
  rw [if_neg h10] at he
  by_cases h11 : r = "digit_ratio"
  · rw [if_pos h11, show checkDigitRatio cfg "" = (true, 0) from rfl] at he
    injection he with hh; injection hh with hb hs2; rw [← hb] at hp; cases hp
  rw [if_neg h11] at he
  by_cases h12 : r = "alpha_ratio"
  · rw [if_pos h12, show checkAlphaRatio cfg "" = (true, 0) from rfl] at he
    injection he with hh; injection hh with hb hs2; rw [← hb] at hp; cases hp
  rw [if_neg h12] at he
  cases he

/-- **C9** (amended).  Quality rules with a too-short guard pass vacuously
with score 0: `word_rep` under 10 words, `line_rep` under 3 lines,
`char_rep` under 100 characters, `avg_word_length` with no words,
`sentence_end`/`ellipsis`/`bullet` with no lines, and
`curly_brace`/`digit_ratio`/`alpha_ratio` on empty text.  The `min_words`
and `max_words` rules evaluate on any input, so they are the only rules that
can fail on an empty document (and `min_words` does fail whenever
`min_words > 0` — the claim's "not rejected" is false; see the
counterexample).  Per-rule scores are recorded for every enabled rule in the
rule table, for kept and rejected documents alike. -/
theorem quality_vacuous_pass_and_scores (cfg : QualityConfig) (doc : Doc) :
    ((getWords doc.text).length < 10 → checkWordRep cfg doc.text = (true, 0)) ∧
    ((getLines doc.text).length < 3 → checkLineRep cfg doc.text = (true, 0)) ∧
    (doc.text.length < 100 → checkCharRep cfg doc.text = (true, 0)) ∧
    (getWords doc.text = [] → checkAvgWordLength cfg doc.text = (true, 0)) ∧
    (getLines doc.text = [] →
      checkSentenceEndings cfg doc.text = (true, 0) ∧
      checkEllipsis cfg doc.text = (true, 0) ∧
      checkBullets cfg doc.text = (true, 0)) ∧
    (doc.text = "" →
      checkCurlyBraces cfg doc.text = (true, 0) ∧
      checkDigitRatio cfg doc.text = (true, 0) ∧
      checkAlphaRatio cfg doc.text = (true, 0)) ∧
    (doc.text = "" → ∀ r ∈ (qualityFilter cfg doc).failedRules,
      r = "min_words" ∨ r = "max_words") ∧
    ((qualityFilter cfg doc).qualityScores = (qualityCall cfg doc.text).2.1 ∧
      (qualityFilter cfg doc).qualityScores.map Prod.fst =
        cfg.enabledRules.filter (fun r => (ruleEval cfg r doc.text).isSome)) := by
  have hscores : (qualityFilter cfg doc).qualityScores = (qualityCall cfg doc.text).2.1 := by
    unfold qualityFilter
    rcases h : qualityCall cfg doc.text with ⟨p, scores, failed⟩
    cases p <;> simp
  refine ⟨?_, ?_, ?_, ?_, ?_, ?_, ?_, hscores, ?_⟩
  · intro h; simp [checkWordRep, h]
  · intro h; simp [checkLineRep, h]
  · intro h; simp [checkCharRep, h]
  · intro h; simp [checkAvgWordLength, h]
  · intro h
    refine ⟨?_, ?_, ?_⟩ <;> simp [checkSentenceEndings, checkEllipsis, checkBullets, h]
  · intro h
    refine ⟨?_, ?_, ?_⟩ <;> simp [checkCurlyBraces, checkDigitRatio, checkAlphaRatio, h]
  · intro h r hr
    have hfailed : (qualityFilter cfg doc).failedRules = [] ∨
        (qualityFilter cfg doc).failedRules =
          (cfg.enabledRules.foldl (qualityStep cfg doc.text) ([], [])).2 := by
      unfold qualityFilter qualityCall
      rcases hs : cfg.enabledRules.foldl (qualityStep cfg doc.text) ([], []) with ⟨sc, fl⟩
      by_cases hfl : fl = []
      · subst hfl; simp
      · simp [hfl]
    rcases hfailed with hf | hf
    · rw [hf] at hr; cases hr
    · rw [hf] at hr
      rw [h] at hr
      exact qualityFold_failed_prop cfg "" (ruleEval_empty_fail cfg)
        cfg.enabledRules ([], []) (by intro x hx; cases hx) r hr
  · rw [hscores]
    unfold qualityCall
    simpa using qualityFold_scores cfg doc.text cfg.enabledRules ([], [])

/-- **C9** counterexample: under the default configuration the empty-text
document is rejected — `min_words` fails (0 words < 50) instead of passing
vacuously, so the claim that an empty document is never rejected is false. -/
theorem quality_empty_rejected_counterexample :
    ((qualityFilter {} ⟨"d", "", 0, []⟩).result = none) ∧
    (qualityFilter {} ⟨"d", "", 0, []⟩).failedRules = ["min_words"] := by
  exact ⟨rfl, rfl⟩

/-- Witness for C9 at a concrete input: the empty document's
`quality_scores` names every enabled rule even though it is rejected. -/
theorem quality_scores_witness :
    (qualityFilter {} ⟨"d", "", 0, []⟩).qualityScores.map Prod.fst =
      ({} : QualityConfig).enabledRules.filter
        (fun r => (ruleEval {} r ("" : String)).isSome) :=
  (quality_vacuous_pass_and_scores {} ⟨"d", "", 0, []⟩).2.2.2.2.2.2.2.2

/-- Key-sorting two permuted entry lists with duplicate-free keys yields the
same list: key order in the source dict is irrelevant to the sorted form. -/
theorem sortByKey_eq_of_perm (kvs1 kvs2 : List (String × Json))
    (hnd : (kvs1.map Prod.fst).Nodup) (hp : kvs1.Perm kvs2) :
    sortByKey kvs1 = sortByKey kvs2 := by
  have hstrict : ∀ (l : List (String × Json)), List.Sorted keyLe l →
      (l.map Prod.fst).Nodup →
      List.Sorted (fun a b : String × Json => a.1 < b.1) l := by
    intro l hs hnd'
    have hne : List.Pairwise (fun a b : String × Json => a.1 ≠ b.1) l :=
      List.pairwise_map.1 hnd'
    exact (hs.and hne).imp (fun h => lt_of_le_of_ne h.1 h.2)
  have hperm : (sortByKey kvs1).Perm (sortByKey kvs2) :=
    (List.perm_insertionSort keyLe kvs1).trans
      (hp.trans (List.perm_insertionSort keyLe kvs2).symm)
  have hnd1 : ((sortByKey kvs1).map Prod.fst).Nodup :=
    (((List.perm_insertionSort keyLe kvs1).map Prod.fst).nodup_iff).2 hnd
  have hnd2 : ((sortByKey kvs2).map Prod.fst).Nodup :=
    (((List.perm_insertionSort keyLe kvs2).map Prod.fst).nodup_iff).2
      (((hp.map Prod.fst).nodup_iff).1 hnd)
  haveI : IsAntisymm (String × Json) (fun a b : String × Json => a.1 < b.1) :=
    ⟨fun _ _ h1 h2 => absurd h2 (lt_asymm h1)⟩
  exact List.eq_of_perm_of_sorted hperm
    (hstrict _ (List.sorted_insertionSort keyLe kvs1) hnd1)
    (hstrict _ (List.sorted_insertionSort keyLe kvs2) hnd2)

/-- The recursive key-sorting of an object's entries is a value-wise map. -/
theorem sortJsonKVs_eq_map :
    ∀ l : List (String × Json),
      sortJsonKVs l = l.map (fun kv => (kv.1, sortJson kv.2)) := by
  intro l
  induction l with
  | nil => rfl
  | cons kv rest ih =>
    obtain ⟨k, v⟩ := kv
    simp only [sortJsonKVs, List.map_cons, ih]

/-- Two objects whose entry lists are permutations of each other (with
duplicate-free keys, as Python dicts guarantee) have the same canonical
sorted form. -/
theorem sortJson_obj_perm (kvs1 kvs2 : List (String × Json))
    (hnd : (kvs1.map Prod.fst).Nodup) (hp : kvs1.Perm kvs2) :
    sortJson (Json.obj kvs1) = sortJson (Json.obj kvs2) := by
  simp only [sortJson]
  rw [sortJsonKVs_eq_map, sortJsonKVs_eq_map]
  rw [sortByKey_eq_of_perm]
  · have : (kvs1.map (fun kv => (kv.1, sortJson kv.2))).map Prod.fst = kvs1.map Prod.fst := by
      simp [Function.comp]
    rw [this]
    exact hnd
  · exact hp.map _

/-- **C6.** Policy-hash key-order invariance: two policy configurations that
are equal as maps — their canonical sorted forms coincide, which for
entry-permuted objects with duplicate-free keys always holds — receive the
same `compute_policy_hash` (first 16 hex chars of SHA-256 over the
canonical JSON string with lexicographically sorted keys and no
insignificant whitespace), and the artifact hash over
`(policy config, code_version, input_signature)` is likewise equal when code
version and input signature agree. -/
theorem policy_hash_key_order_invariance (sha : String → String)
    (p1 p2 : Json) (cv inputSig : String) (h : sortJson p1 = sortJson p2) :
    (computePolicyHash sha p1 = computePolicyHash sha p2 ∧
     computeArtifactHash sha p1 cv inputSig = computeArtifactHash sha p2 cv inputSig) ∧
    ∀ (kvs1 kvs2 : List (String × Json)), (kvs1.map Prod.fst).Nodup →
      kvs1.Perm kvs2 → sortJson (Json.obj kvs1) = sortJson (Json.obj kvs2) := by
  refine ⟨⟨?_, ?_⟩, sortJson_obj_perm⟩
  · unfold computePolicyHash canonicalizePolicy
    rw [h]
  · unfold computeArtifactHash
    rw [h]

/-- Witness for C6 at the spec's concrete scenario: two configurations whose
`slice_weights` dicts hold the same entries in swapped insertion order hash
identically. -/
theorem policy_hash_witness :
    computePolicyHash (fun s => s)
        (.obj [("name", .str "p"),
               ("slice_weights", .obj [("a", .num "0.5"), ("b", .num "0.5")])]) =
      computePolicyHash (fun s => s)
        (.obj [("name", .str "p"),
               ("slice_weights", .obj [("b", .num "0.5"), ("a", .num "0.5")])]) :=
  (policy_hash_key_order_invariance (fun s => s)
    (.obj [("name", .str "p"),
           ("slice_weights", .obj [("a", .num "0.5"), ("b", .num "0.5")])])
    (.obj [("name", .str "p"),
           ("slice_weights", .obj [("b", .num "0.5"), ("a", .num "0.5")])])
    "c" "i"
    (by
      have hinner : sortJson (Json.obj [("a", Json.num "0.5"), ("b", Json.num "0.5")]) =
          sortJson (Json.obj [("b", Json.num "0.5"), ("a", Json.num "0.5")]) :=
        sortJson_obj_perm _ _ (by decide) (List.Perm.swap _ _ _)
      simp only [sortJson, sortJsonKVs]
      simp only [sortJson, sortJsonKVs] at hinner
      rw [hinner])).1.1

end CurationGym
